import Mathlib

/-!
Verification development for the `table` package (kmio11/go-table, src/table.go):
a bidirectional mapper between tabular string data (header + rows) and
slices of structs, with tag-based field resolution (including embedded
structs), a tiered cell codec (custom table codec → text codec → built-in
primitive conversion) and a configurable nil-value sentinel.

The Go code is shallowly embedded:
* `Options`, `setField`, `formatField`, `getFieldMap`,
  `MarshalWithOptions`, `UnmarshalWithOptions` mirror the functions of the
  same names in src/table.go.
* Go struct types are `List Field` (a field is a tagged leaf or an
  embedded struct); Go struct values are `Val`.
* Machine integers are `Int`/`Nat` with explicit wrapping modulo `2^w`
  (mirroring Go's truncating conversions used by `reflect.Value.SetInt` /
  `SetUint`); `strconv` parsing is modelled digit by digit, including the
  64-bit range checks.  Floating-point fields are outside the modelled
  universe.
* Custom codec capabilities (`TableMarshaler`/`TextMarshaler` and their
  unmarshal counterparts) are modelled as per-value (encode) and per-type
  (decode) optional hooks whose results are opaque data.
* Error values are the error message strings the Go code produces; where
  Go interpolates a `reflect.Type`/`reflect.Kind` with `%v`, the printed
  name is abstracted by `typeStr`/kind names.
-/

namespace GoTable

/-- Options mirrors `Options` of src/table.go: the nil-value sentinel string. -/
structure Options where
  nilValue : String

/-- DefaultOptions mirrors `DefaultOptions` of src/table.go: NilValue is the
two characters backslash-N. -/
def DefaultOptions : Options :=
  ⟨"\\N"⟩

/-! ### Decimal parsing and formatting (model of strconv.ParseInt/ParseUint/
ParseBool and strconv.FormatInt/FormatUint/FormatBool at base 10) -/

/-- digitVal models the per-character digit test `'0' <= c && c <= '9'` of
strconv's base-10 parse loop: the ten decimal digit characters map to their
values, every other character is a syntax error. -/
def digitVal (c : Char) : Option Nat :=
  if c = '0' then some 0 else if c = '1' then some 1 else if c = '2' then some 2
  else if c = '3' then some 3 else if c = '4' then some 4 else if c = '5' then some 5
  else if c = '6' then some 6 else if c = '7' then some 7 else if c = '8' then some 8
  else if c = '9' then some 9 else none

/-- digitChar renders one decimal digit, as strconv's formatting loop does. -/
def digitChar (d : Nat) : Char :=
  if d = 0 then '0' else if d = 1 then '1' else if d = 2 then '2'
  else if d = 3 then '3' else if d = 4 then '4' else if d = 5 then '5'
  else if d = 6 then '6' else if d = 7 then '7' else if d = 8 then '8' else '9'

/-- parseDigitsAux folds base-10 digits left to right, failing on the first
non-digit character, as strconv's parse loop does (without overflow cutoff;
the 64-bit range check is applied by the callers below). -/
def parseDigitsAux : List Char → Nat → Option Nat
  | [], acc => some acc
  | c :: cs, acc =>
    match digitVal c with
    | some d => parseDigitsAux cs (acc * 10 + d)
    | none => none

/-- parseDigits parses a non-empty all-digit character list; the empty list is
a syntax error (strconv rejects the empty string). -/
def parseDigits (cs : List Char) : Option Nat :=
  match cs with
  | [] => none
  | _ => parseDigitsAux cs 0

/-- natDigitsRev is the little-endian base-10 digit list of a natural number
(empty for 0), the digits strconv's formatter emits in reverse. -/
def natDigitsRev (n : Nat) : List Nat :=
  if n = 0 then [] else n % 10 :: natDigitsRev (n / 10)
decreasing_by exact Nat.div_lt_self (Nat.pos_of_ne_zero (by assumption)) (by omega)

/-- natChars is the decimal character rendering of a natural number, as
produced by strconv.FormatUint(n, 10). -/
def natChars (n : Nat) : List Char :=
  if n = 0 then ['0'] else (natDigitsRev n).reverse.map digitChar

/-- formatNat models strconv.FormatUint(n, 10). -/
def formatNat (n : Nat) : String :=
  String.mk (natChars n)

/-- formatInt models strconv.FormatInt(i, 10): a minus sign followed by the
decimal magnitude for negative inputs. -/
def formatInt (i : Int) : String :=
  String.mk (if i < 0 then '-' :: natChars (-i).toNat else natChars i.toNat)

/-- quoteStr renders a cell inside a strconv error message (the `%q` of
strconv's NumError; escaping of special characters is abstracted). -/
def quoteStr (s : String) : String :=
  "\"" ++ s ++ "\""

/-- intFromDigits applies ParseInt's signed 64-bit cutoff to the parsed
magnitude: at most 2^63 for a negative value, at most 2^63 - 1 otherwise. -/
def intFromDigits (s : String) (neg : Bool) (d : Option Nat) : Except String Int :=
  match d with
  | none => .error ("strconv.ParseInt: parsing " ++ quoteStr s ++ ": invalid syntax")
  | some n =>
    if neg then
      if n ≤ 2 ^ 63 then .ok (-(n : Int))
      else .error ("strconv.ParseInt: parsing " ++ quoteStr s ++ ": value out of range")
    else
      if n ≤ 2 ^ 63 - 1 then .ok (n : Int)
      else .error ("strconv.ParseInt: parsing " ++ quoteStr s ++ ": value out of range")

/-- parseInt64 models strconv.ParseInt(s, 10, 64): an optional leading sign
(which ParseInt strips before delegating to the digit loop), at least one
decimal digit, magnitude within the signed 64-bit range. -/
def parseInt64 (s : String) : Except String Int :=
  match s.data with
  | [] => .error ("strconv.ParseInt: parsing " ++ quoteStr s ++ ": invalid syntax")
  | c :: rest =>
    if c = '-' then intFromDigits s true (parseDigits rest)
    else if c = '+' then intFromDigits s false (parseDigits rest)
    else intFromDigits s false (parseDigits (c :: rest))

/-- parseUint64 models strconv.ParseUint(s, 10, 64): at least one decimal
digit (no sign permitted), value within the unsigned 64-bit range. -/
def parseUint64 (s : String) : Except String Nat :=
  match parseDigits s.data with
  | none => .error ("strconv.ParseUint: parsing " ++ quoteStr s ++ ": invalid syntax")
  | some n =>
    if n ≤ 2 ^ 64 - 1 then .ok n
    else .error ("strconv.ParseUint: parsing " ++ quoteStr s ++ ": value out of range")

/-- parseBool models strconv.ParseBool: exactly the twelve accepted literals. -/
def parseBool (s : String) : Except String Bool :=
  if s = "1" ∨ s = "t" ∨ s = "T" ∨ s = "TRUE" ∨ s = "true" ∨ s = "True" then .ok true
  else if s = "0" ∨ s = "f" ∨ s = "F" ∨ s = "FALSE" ∨ s = "false" ∨ s = "False" then .ok false
  else .error ("strconv.ParseBool: parsing " ++ quoteStr s ++ ": invalid syntax")

/-- formatBool models strconv.FormatBool. -/
def formatBool (b : Bool) : String :=
  if b then "true" else "false"

/-! ### Round-trip facts about the decimal codec -/

/-- valLE is the value of a little-endian base-10 digit list. -/
def valLE : List Nat → Nat
  | [] => 0
  | d :: ds => d + 10 * valLE ds

/-! ### Field values and field types

Go field values reachable by the codec are modelled by `GoVal`; their types
by `FieldType`.  `w` is the bit width of an integer kind (Go `int`/`uint`
are 64-bit here, as on the platforms the package targets).  Values of kinds
the built-in switch does not handle (structs, slices, ...) are `other`,
carrying the `fmt.Sprintf("%v", ...)` rendering the encoder would emit.
A Go type implementing the custom codec capabilities is modelled by
attaching hooks: on the encode side the hook results are data attached to
the value (`EncodeHooks`, the receiver being the value itself); on the
decode side the hooks are functions of the cell attached to the field's
type (`DecodeHooks`; the dependence of user code on the prior receiver
state is not modelled, no claim depends on it). -/

/-- BaseVal is a value of one of the kinds the built-in conversion switch
dispatches on, or `other` for any kind outside it. -/
inductive BaseVal where
  | str (s : String)
  | int (w : Nat) (v : Int)
  | uint (w : Nat) (v : Nat)
  | bool (b : Bool)
  | other (render : String)

/-- EncodeHooks carries, for one value, the results of its custom marshal
methods: `none` means the capability is not implemented, `some none` that it
is implemented and returns an error, `some (some s)` that it returns `s`. -/
structure EncodeHooks where
  marshalTable : Option (Option String)
  marshalText : Option (Option String)

/-- GoVal is a Go field value: a plain value, a value of a type implementing
the custom marshal capabilities over an underlying kind, or a pointer
(`ptr none` is nil). -/
inductive GoVal where
  | base (u : BaseVal)
  | hooked (enc : EncodeHooks) (u : BaseVal)
  | ptr (inner : Option GoVal)

/-- DecodeHooks carries a type's custom unmarshal methods: each, when
implemented, maps the cell string to the resulting field value or an error. -/
structure DecodeHooks where
  unmarshalTable : Option (String → Except String GoVal)
  unmarshalText : Option (String → Except String GoVal)

/-- BaseType is the type-level counterpart of `BaseVal`; `other` carries the
printed name of the unsupported kind (the `%v` of `reflect.Kind`). -/
inductive BaseType where
  | str
  | int (w : Nat)
  | uint (w : Nat)
  | bool
  | other (kindName : String)

/-- FieldType is a Go field type: a plain kind, a named type with custom
unmarshal capabilities over an underlying kind, or a pointer type. -/
inductive FieldType where
  | base (t : BaseType)
  | hooked (dec : DecodeHooks) (t : BaseType)
  | ptr (elem : FieldType)

/-- baseTypeStr renders a base type the way `%v` on the reflect.Type would
(the spelling of named/platform types is abstracted). -/
def baseTypeStr : BaseType → String
  | .str => "string"
  | .int w => "int" ++ formatNat w
  | .uint w => "uint" ++ formatNat w
  | .bool => "bool"
  | .other k => k

/-- typeStr renders a field type for the nil-assignment error message. -/
def typeStr : FieldType → String
  | .base t => baseTypeStr t
  | .hooked _ t => baseTypeStr t
  | .ptr e => "*" ++ typeStr e

/-- zeroBase is the Go zero value of a base kind (the rendering of an
unsupported kind's zero value is not observable by any claim and is left
empty). -/
def zeroBase : BaseType → BaseVal
  | .str => .str ""
  | .int w => .int w 0
  | .uint w => .uint w 0
  | .bool => .bool false
  | .other _ => .other ""

/-- zeroGo is the Go zero value of a field type, as produced by
`reflect.New`.  For a type with decode hooks the zero value is modelled
without encode hooks; no claim formats a freshly decoded hooked value. -/
def zeroGo : FieldType → GoVal
  | .base t => .base (zeroBase t)
  | .hooked _ t => .base (zeroBase t)
  | .ptr _ => .ptr none

/-- wrapUnsigned is Go's truncating conversion uint64 → uintw, performed by
`reflect.Value.SetUint` when the field is narrower than 64 bits. -/
def wrapUnsigned (w : Nat) (n : Nat) : Nat :=
  n % 2 ^ w

/-- wrapSigned is Go's truncating conversion int64 → intw (two's-complement
wraparound), performed by `reflect.Value.SetInt`. -/
def wrapSigned (w : Nat) (i : Int) : Int :=
  (i + 2 ^ (w - 1)) % 2 ^ w - 2 ^ (w - 1)

/-! ### The cell codec: setField (decode) and formatField (encode) -/

/-- setSwitch is the built-in conversion switch of `setField` (tier 3 of the
decode dispatch, src/table.go lines 276-306): dispatch on the field's kind,
parse at full 64-bit width, store with Go's truncating conversion. -/
def setSwitch (t : BaseType) (value : String) : Except String GoVal :=
  match t with
  | .str => .ok (.base (.str value))
  | .int w =>
    match parseInt64 value with
    | .error e => .error e
    | .ok i => .ok (.base (.int w (wrapSigned w i)))
  | .uint w =>
    match parseUint64 value with
    | .error e => .error e
    | .ok n => .ok (.base (.uint w (wrapUnsigned w n)))
  | .bool =>
    match parseBool value with
    | .error e => .error e
    | .ok b => .ok (.base (.bool b))
  | .other k => .error ("unsupported field type: " ++ k)

/-- derefOr is the value `setField` recurses on through a pointer field:
the pointed-to value when the field already holds a non-nil pointer, the
element type's zero value otherwise (the `reflect.New` allocation of
src/table.go lines 256-258). -/
def derefOr (old : GoVal) (elem : FieldType) : GoVal :=
  match old with
  | .ptr (some i) => i
  | _ => zeroGo elem

/-- setField mirrors `setField` of src/table.go: the nil-sentinel check
first, then the pointer unwrap (empty cell clears, otherwise allocate if nil
and recurse), then the TableUnmarshaler hook, the TextUnmarshaler hook, and
the built-in switch.  `old` is the field's current value (used, as in Go,
only to decide whether a pointer must be allocated before recursing).  The
`field.CanAddr()` guards of the source are always true on the decode path
(the field is reached from a freshly allocated struct), so they are not
modelled. -/
def setField (ty : FieldType) (old : GoVal) (value : String) (opts : Options) :
    Except String GoVal :=
  if value = opts.nilValue then
    match ty with
    | .ptr _ => .ok (.ptr none)
    | _ => .error ("cannot set nil to non-pointer field of type: " ++ typeStr ty)
  else
    match ty with
    | .ptr elem =>
      if value = "" then .ok (.ptr none)
      else
        match setField elem (derefOr old elem) value opts with
        | .ok v => .ok (.ptr (some v))
        | .error e => .error e
    | .hooked dec t =>
      match dec.unmarshalTable with
      | some f => f value
      | none =>
        match dec.unmarshalText with
        | some f => f value
        | none => setSwitch t value
    | .base t => setSwitch t value

/-- formatSwitch is the built-in formatting switch of `formatField` (tier 3
of the encode dispatch, src/table.go lines 342-356); the default case is the
generic `fmt.Sprintf` rendering. -/
def formatSwitch : BaseVal → String
  | .str s => s
  | .int _ i => formatInt i
  | .uint _ n => formatNat n
  | .bool b => formatBool b
  | .other r => r

/-- formatField mirrors `formatField` of src/table.go: nil pointers render
as the sentinel, non-nil pointers are dereferenced, then the TableMarshaler
hook is tried (its error falls through), then the TextMarshaler hook (its
error falls through), then the built-in switch.  The `field.CanAddr()`
guards of the source are always true on the encode path (slice elements and
their fields are addressable), so they are not modelled. -/
def formatField (v : GoVal) (opts : Options) : String :=
  match v with
  | .ptr none => opts.nilValue
  | .ptr (some inner) => formatField inner opts
  | .hooked enc u =>
    match enc.marshalTable with
    | some (some s) => s
    | _ =>
      match enc.marshalText with
      | some (some s) => s
      | _ => formatSwitch u
  | .base u => formatSwitch u

/-! ### Well-formedness of values, and the conditions for a faithful cell -/

/-- validWidth lists the signed/unsigned integer widths reflect can present
to the switch (`int`/`uint` being 64-bit). -/
def validWidth (w : Nat) : Bool :=
  w = 8 || w = 16 || w = 32 || w = 64

/-- wfBase: the value belongs to the base type, integer values being the
canonical representative of their width's range (as Go's typed storage
guarantees). -/
def wfBase : BaseType → BaseVal → Bool
  | .str, .str _ => true
  | .int w, .int w' v =>
    w' = w && validWidth w && decide (-(2 ^ (w - 1) : Int) ≤ v) && decide (v < 2 ^ (w - 1))
  | .uint w, .uint w' v => w' = w && validWidth w && decide (v < 2 ^ w)
  | .bool, .bool _ => true
  | .other _, .other _ => true
  | _, _ => false

/-- wfGo: the value belongs to the field type. -/
def wfGo : FieldType → GoVal → Bool
  | .base t, .base u => wfBase t u
  | .hooked _ t, .hooked _ u => wfBase t u
  | .ptr _, .ptr none => true
  | .ptr e, .ptr (some i) => wfGo e i
  | _, _ => false

/-- plainType: the field type is fully handled by the built-in switch
(string/int/uint/bool with a reflect-presentable width, possibly behind
pointers); no custom codec, no unsupported kind. -/
def plainType : FieldType → Bool
  | .base .str => true
  | .base (.int w) => validWidth w
  | .base (.uint w) => validWidth w
  | .base .bool => true
  | .base (.other _) => false
  | .hooked _ _ => false
  | .ptr e => plainType e

/-- noNil: no pointer level of the value is nil (no optional field absent). -/
def noNil : GoVal → Bool
  | .ptr none => false
  | .ptr (some i) => noNil i
  | _ => true

/-- isPtrT: the field type is a pointer (optional) type. -/
def isPtrT : FieldType → Bool
  | .ptr _ => true
  | _ => false

/-! ### Struct shapes and struct values

A Go struct type is a `List Field`; a field is either a leaf carrying its
`table` tag string (the tag is `""` when the struct field has no table tag)
or an anonymous embedded struct.  A Go struct value is mirrored by `Val`. -/

/-- Field is one declared member of a struct type. -/
inductive Field where
  | leaf (tag : String) (ty : FieldType)
  | embed (sub : List Field)

/-- Val is a struct value (`strct`) or a single field value (`leaf`),
mirroring the shape of the struct type. -/
inductive Val where
  | leaf (v : GoVal)
  | strct (fields : List Val)

/-! ### Go slices of ints and their backing arrays

`fieldInfo.index` in src/table.go is a Go `[]int`.  The walk of
`getFieldMap` computes `currIndex := append(index, i)` (src/table.go line
178); Go's append returns a slice that shares the backing array of `index`
whenever spare capacity is available, writing the appended element into
that shared backing in place, and the `fieldInfo` values stored in the map
hold slice headers into the same backing arrays.  The model therefore
carries an explicit store of backing arrays: a slice value is a (backing
array id, length) header, and `goAppend` reproduces Go's append, including
the in-place write at spare capacity and the capacity-doubling allocation
when full (capacities 0 → 1 → 2 → 4 → 8 …; for this element size the size
classes of Go's allocator keep the doubled capacities exact). -/

/-- Slice is a Go slice header into the store: backing array id and length.
All slices of this walk start at offset 0 of their backing array, so no
offset component is needed, and the capacity is the length of the backing
array itself. -/
structure Slice where
  arr : Nat
  len : Nat

/-- Mem is the store of backing arrays, indexed by id; each array's list
length is its capacity (cells past a slice's length are spare capacity). -/
structure Mem where
  arrays : List (List Nat)

/-- nthArr: read backing array `n` of a store (empty if out of range). -/
def nthArr : List (List Nat) → Nat → List Nat
  | [], _ => []
  | a :: _, 0 => a
  | _ :: rest, n + 1 => nthArr rest n

/-- setNth: replace backing array `n` of a store (no-op if out of range). -/
def setNth : List (List Nat) → Nat → List Nat → List (List Nat)
  | [], _, _ => []
  | _ :: rest, 0, v => v :: rest
  | a :: rest, n + 1, v => a :: setNth rest n v

/-- writeCell: overwrite cell `n` of one backing array (an in-place slice
element write). -/
def writeCell : List Nat → Nat → Nat → List Nat
  | [], _, _ => []
  | _ :: rest, 0, x => x :: rest
  | a :: rest, n + 1, x => a :: writeCell rest n x

/-- readArr: the backing array a slice header points into. -/
def readArr (m : Mem) (a : Nat) : List Nat :=
  nthArr m.arrays a

/-- capOf: a slice's capacity (the length of its backing array). -/
def capOf (m : Mem) (s : Slice) : Nat :=
  (readArr m s.arr).length

/-- readSlice: the elements a slice header denotes — the first `len` cells
of its backing array, read at the current state of the store. -/
def readSlice (m : Mem) (s : Slice) : List Nat :=
  (readArr m s.arr).take s.len

/-- growCap: the capacity Go's append allocates when the slice is full — the
doubled capacity (1 from empty); exact for this element size, whose size
classes preserve the doubling. -/
def growCap (c : Nat) : Nat :=
  if c = 0 then 1 else 2 * c

/-- goAppend models Go's `append(s, x)` on an `[]int`: with spare capacity
(`len < cap`) the element is written into the shared backing array in place
and the same array id is returned with the length grown by one; when full, a
fresh backing array of the grown capacity is allocated, the live prefix and
the new element are copied in, and the remaining cells are spare capacity
(zeroed, never observable through any header of this walk). -/
def goAppend (m : Mem) (s : Slice) (x : Nat) : Slice × Mem :=
  if s.len < capOf m s then
    (⟨s.arr, s.len + 1⟩, ⟨setNth m.arrays s.arr (writeCell (readArr m s.arr) s.len x)⟩)
  else
    (⟨m.arrays.length, s.len + 1⟩,
      ⟨m.arrays ++ [readSlice m s ++ [x] ++
        List.replicate (growCap (capOf m s) - (s.len + 1)) 0]⟩)

/-- nilSlice: the nil `[]int` the walk starts from (length 0, capacity 0;
array 0 of the initial store is its empty backing). -/
def nilSlice : Slice := ⟨0, 0⟩

/-- memNil: the initial store: just the empty backing of the nil slice. -/
def memNil : Mem := ⟨[[]]⟩

/-- FieldInfo mirrors `fieldInfo` of src/table.go: the member-index path from
the record root to the leaf — stored as a slice header into the walk's
backing arrays, exactly as Go stores the `[]int` produced by append — its
tag, and its declaration position. -/
structure FieldInfo where
  index : Slice
  tag : String
  position : Nat

/-- ResolveState is the accumulating state of `getFieldMap`: the `fields`
map (a Go map, modelled as an association list whose insert replaces the
existing binding in place), the `orderedTags` slice, the running position
counter, and the store of backing arrays the index slices point into. -/
structure ResolveState where
  fields : List (String × FieldInfo)
  orderedTags : List String
  pos : Nat
  mem : Mem

/-- updateAssoc models Go's `m[k] = v`: replace the binding in place if the
key is present, append it otherwise. -/
def updateAssoc {α : Type} : List (String × α) → String → α → List (String × α)
  | [], k, v => [(k, v)]
  | (k', v') :: rest, k, v =>
    if k' = k then (k, v) :: rest else (k', v') :: updateAssoc rest k v

/-- lookupAssoc models Go's `m[k]` presence lookup. -/
def lookupAssoc {α : Type} : List (String × α) → String → Option α
  | [], _ => none
  | (k', v') :: rest, k => if k' = k then some v' else lookupAssoc rest k

/-- hasTag mirrors `fieldMap.hasTag` of src/table.go: a linear scan of
orderedTags. -/
def hasTag : List String → String → Bool
  | [], _ => false
  | t :: rest, tag => if t = tag then true else hasTag rest tag

/-- removeFirst removes the first occurrence of a tag from orderedTags, as
src/table.go lines 205-208 do via `findTagIndex` and a slice splice (a
no-op when the tag is absent, matching `existingIdx < 0`). -/
def removeFirst : List String → String → List String
  | [], _ => []
  | t :: rest, tag => if t = tag then rest else t :: removeFirst rest tag

/-- resolveLeaf is the per-leaf body of `getFieldMap`'s walk
(src/table.go lines 186-210): skip untagged or ignored fields, skip an
embedded leaf whose tag is already taken, otherwise overwrite the map entry
and move the tag to the end of orderedTags. -/
def resolveLeaf (st : ResolveState) (tag : String) (currIndex : Slice)
    (isEmbedded : Bool) : ResolveState :=
  if tag = "" || tag = "-" then st
  else if isEmbedded && hasTag st.orderedTags tag then st
  else
    { fields := updateAssoc st.fields tag ⟨currIndex, tag, st.pos⟩
      orderedTags := removeFirst st.orderedTags tag ++ [tag]
      pos := st.pos + 1
      mem := st.mem }

/-- addFields mirrors the recursive closure `addFields` of `getFieldMap`
(src/table.go lines 174-212): walk the declared members in order, recursing
into anonymous sub-structs with `isEmbedded = true`, and resolve each tagged
leaf.  `index` is the access-path prefix (a slice header) and `i` the member
index of the first field of `fs` in the current struct.  The append
`currIndex := append(index, i)` (line 178) runs at the top of the loop body,
before the tag and skip checks, so its effect on the store — in particular
the in-place write into shared spare capacity — happens even for fields
that are subsequently skipped. -/
def addFields : List Field → Slice → Nat → Bool → ResolveState → ResolveState
  | [], _, _, _, st => st
  | .leaf tag _ :: rest, index, i, isEmb, st =>
    addFields rest index (i + 1) isEmb
      (resolveLeaf ⟨st.fields, st.orderedTags, st.pos, (goAppend st.mem index i).2⟩
        tag (goAppend st.mem index i).1 isEmb)
  | .embed sub :: rest, index, i, isEmb, st =>
    addFields rest index (i + 1) isEmb
      (addFields sub (goAppend st.mem index i).1 0 true
        ⟨st.fields, st.orderedTags, st.pos, (goAppend st.mem index i).2⟩)

/-- getFieldMap mirrors `getFieldMap` of src/table.go: walk the shape from
an empty state and the nil index slice, non-embedded at top level. -/
def getFieldMap (t : List Field) : ResolveState :=
  addFields t nilSlice 0 false ⟨[], [], 0, memNil⟩

/-! ### Navigation through struct values and shapes -/

/-- navigate follows an access path through a struct value, as the
`for _, idx := range info.index { field = field.Field(idx) }` loops do. -/
def navigate : Val → List Nat → Option Val
  | v, [] => some v
  | .strct fs, i :: p =>
    match fs[i]? with
    | some f => navigate f p
    | none => none
  | .leaf _, _ :: _ => none

/-- modifyAt applies a function to the element at one list index (the list
unchanged when the index is out of range). -/
def modifyAt {α : Type} (f : α → α) : Nat → List α → List α
  | _, [] => []
  | 0, a :: rest => f a :: rest
  | n + 1, a :: rest => a :: modifyAt f n rest

/-- setAtVal writes a new leaf value at the end of an access path (a no-op
on a path that does not lead to a leaf), modelling the in-place mutation of
the navigated `reflect.Value`. -/
def setAtVal : Val → List Nat → GoVal → Val
  | .leaf _, [], nv => .leaf nv
  | .strct fs, [], _ => .strct fs
  | .leaf v, _ :: _, _ => .leaf v
  | .strct fs, i :: p, nv => .strct (modifyAt (fun f => setAtVal f p nv) i fs)

/-- typeAt reads the field type at an access path of a shape. -/
def typeAt : List Field → List Nat → Option FieldType
  | _, [] => none
  | fs, i :: p =>
    match fs[i]? with
    | none => none
    | some (.leaf _ ty) =>
      match p with
      | [] => some ty
      | _ :: _ => none
    | some (.embed sub) =>
      match p with
      | [] => none
      | _ :: _ => typeAt sub p

/-- zeroFields is the zero struct value of a shape, as `reflect.New` on the
slice element type produces for each decoded row. -/
def zeroFields : List Field → List Val
  | [] => []
  | .leaf _ ty :: rest => .leaf (zeroGo ty) :: zeroFields rest
  | .embed sub :: rest => .strct (zeroFields sub) :: zeroFields rest

/-! ### Whole-table encode and decode -/

/-- marshalRow encodes one record: one cell per name in orderedTags, looked
up in the fields map and navigated to (src/table.go lines 133-146).  The
fallback branches are unreachable for a map produced by getFieldMap. -/
def marshalRow (fm : ResolveState) (v : Val) (opts : Options) : List String :=
  fm.orderedTags.map fun tag =>
    match lookupAssoc fm.fields tag with
    | none => ""
    | some info =>
      match navigate v (readSlice fm.mem info.index) with
      | some (.leaf gv) => formatField gv opts
      | _ => ""

/-- MarshalWithOptions mirrors `MarshalWithOptions` of src/table.go on the
modelled universe (the argument is already a slice of structs): an empty
slice yields nil header and nil rows; otherwise the header is orderedTags
and each record becomes one row. -/
def MarshalWithOptions (shape : List Field) (vs : List Val) (opts : Options) :
    List String × List (List String) :=
  match vs with
  | [] => ([], [])
  | _ =>
    (( getFieldMap shape).orderedTags,
      vs.map fun v => marshalRow (getFieldMap shape) v opts)

/-- fillCells is the per-row cell loop of `UnmarshalWithOptions`
(src/table.go lines 81-92): for each (header name, cell) pair in order, if
the name resolves in the fields map, navigate to the field and set it,
wrapping a set error with the column name.  The invalid-path branch is
unreachable for a map produced by getFieldMap over the same shape (Go would
panic there). -/
def fillCells (shape : List Field) (fm : List (String × FieldInfo)) (mem : Mem)
    (opts : Options) : List (String × String) → Val → Except String Val
  | [], acc => .ok acc
  | (h, col) :: rest, acc =>
    match lookupAssoc fm h with
    | none => fillCells shape fm mem opts rest acc
    | some info =>
      match typeAt shape (readSlice mem info.index),
          navigate acc (readSlice mem info.index) with
      | some ty, some (.leaf old) =>
        match setField ty old col opts with
        | .ok nv => fillCells shape fm mem opts rest (setAtVal acc (readSlice mem info.index) nv)
        | .error e => .error ("setting field " ++ h ++ ": " ++ e)
      | _, _ => .error "invalid field path"

/-- decodeRow is the body of the row loop of `UnmarshalWithOptions`
(src/table.go lines 72-95): the length precondition check, then a zero
struct filled cell by cell. -/
def decodeRow (shape : List Field) (fm : List (String × FieldInfo)) (mem : Mem)
    (header : List String) (opts : Options) (row : List String) : Except String Val :=
  if row.length ≠ header.length then .error "inconsistent data length"
  else fillCells shape fm mem opts (header.zip row) (.strct (zeroFields shape))

/-- unmarshalRowsAux folds decodeRow over the rows, appending each decoded
record; the first error stops the walk, and the function returns the records
appended so far together with the error (the state of the caller's slice
when `UnmarshalWithOptions` returns). -/
def unmarshalRowsAux (shape : List Field) (fm : List (String × FieldInfo)) (mem : Mem)
    (header : List String) (opts : Options) :
    List (List String) → List Val → List Val × Option String
  | [], acc => (acc, none)
  | row :: rest, acc =>
    match decodeRow shape fm mem header opts row with
    | .ok v => unmarshalRowsAux shape fm mem header opts rest (acc ++ [v])
    | .error e => (acc, some e)

/-- UnmarshalWithOptions mirrors `UnmarshalWithOptions` of src/table.go on
the modelled universe (the target is already a pointer to a slice of the
shape's struct type, initially empty): resolve the field map once — the
stored index slices are read against the store as resolution left it — then
decode each row in order. -/
def UnmarshalWithOptions (shape : List Field) (header : List String)
    (rows : List (List String)) (opts : Options) : List Val × Option String :=
  unmarshalRowsAux shape (getFieldMap shape).fields (getFieldMap shape).mem
    header opts rows []

/-! ### Enumerating the tagged leaves of a shape

`leavesOfFields` lists the tagged leaves of a shape in the order
`getFieldMap`'s walk visits them, with access paths relative to the root of
that shape.  It is the specification yardstick against which `getFieldMap`
is characterised below. -/

/-- LeafEntry is one tagged leaf of a shape: its access path, tag and type. -/
structure LeafEntry where
  path : List Nat
  tag : String
  ty : FieldType

/-- shiftEntry shifts a leaf entry one member to the right (its path head
grows by one). -/
def shiftEntry (l : LeafEntry) : LeafEntry :=
  ⟨match l.path with
   | [] => []
   | j :: p => (j + 1) :: p, l.tag, l.ty⟩

/-- consEntry places a leaf entry under member 0 of an enclosing struct. -/
def consEntry (l : LeafEntry) : LeafEntry :=
  ⟨0 :: l.path, l.tag, l.ty⟩

/-- leavesOfFields enumerates the tagged (non-skipped) leaves of a shape in
declaration order, embedded sub-structs flattened in place. -/
def leavesOfFields : List Field → List LeafEntry
  | [] => []
  | .leaf tag ty :: rest =>
    (if tag = "" || tag = "-" then [] else [⟨[0], tag, ty⟩]) ++
      (leavesOfFields rest).map shiftEntry
  | .embed sub :: rest =>
    (leavesOfFields sub).map consEntry ++ (leavesOfFields rest).map shiftEntry

/-- atIndex places a relative leaf entry below path prefix `pre` with its
struct's first member at index `i`. -/
def atIndex (pre : List Nat) (i : Nat) (l : LeafEntry) : LeafEntry :=
  ⟨pre ++
    (match l.path with
     | [] => []
     | j :: p => (i + j) :: p), l.tag, l.ty⟩

/-- memExtends: the second store has all backing arrays of the first,
unchanged, plus freshly allocated ones — the store evolution of a walk
segment in which every append allocates. -/
def memExtends (m m' : Mem) : Prop :=
  ∃ suffix, m'.arrays = m.arrays ++ suffix

/-- bindsLeaves: the fields-map segment `bs` realises the leaf entries `L`
in store `m`, positions counting up from `p`: keys and tags match in order,
and each stored slice header is in range for `m` and reads back exactly the
leaf's access path. -/
def bindsLeaves (m : Mem) : List (String × FieldInfo) → List LeafEntry → Nat → Prop
  | [], [], _ => True
  | (k, info) :: bs, l :: L, p =>
    k = l.tag ∧ info.tag = l.tag ∧ info.position = p ∧
      info.index.arr < m.arrays.length ∧ readSlice m info.index = l.path ∧
      bindsLeaves m bs L (p + 1)
  | _, _, _ => False

/-- noAliasWalk: with a current index slice of length `k`, every slice the
walk over `fs` passes to a recursive call stays full (length = capacity), so
every append allocates a fresh backing array and no stored path is ever
overwritten.  The walk's appends on full slices of length 0 and 1 yield full
slices (capacities 1 and 2), but on a full slice of length 2 they yield a
length-3 slice of capacity 4 — spare capacity — so recursion into an
embedded struct is alias-free only from prefixes of length at most 1:
embedded structs may nest at most two deep (leaf access paths of length at
most 3). -/
def noAliasWalk : Nat → List Field → Bool
  | _, [] => true
  | k, .leaf _ _ :: rest => noAliasWalk k rest
  | k, .embed sub :: rest =>
    decide (k ≤ 1) && noAliasWalk (k + 1) sub && noAliasWalk k rest

/-- stInv is the fieldMap invariant of the spec: orderedTags has no
duplicates, and the fields-map keys are exactly the members of orderedTags. -/
def stInv (st : ResolveState) : Prop :=
  st.orderedTags.Nodup ∧
    ∀ t : String, (lookupAssoc st.fields t).isSome = true ↔ t ∈ st.orderedTags

/-! ### Path independence: writing one leaf does not disturb another -/

/-- incompB: the two paths separate (they differ at some position before
either ends); incomparable paths address disjoint parts of a value. -/
def incompB : List Nat → List Nat → Bool
  | [], _ => false
  | _ :: _, [] => false
  | a :: p, b :: q => if a = b then incompB p q else true

/-! ### Well-formedness of struct values and the round-trip side conditions -/

/-- wfFields: the struct value has the shape's structure, with well-formed
leaf values (Go's typing guarantee). -/
def wfFields : List Field → List Val → Bool
  | [], [] => true
  | .leaf _ ty :: rest, .leaf v :: vrest => wfGo ty v && wfFields rest vrest
  | .embed sub :: rest, .strct vs :: vrest => wfFields sub vs && wfFields rest vrest
  | _, _ => false

/-- plainFields: every leaf type of the shape is plain (built-in kinds only,
no custom codec, no unsupported kind). -/
def plainFields : List Field → Bool
  | [] => true
  | .leaf _ ty :: rest => plainType ty && plainFields rest
  | .embed sub :: rest => plainFields sub && plainFields rest

/-- allTagged: every leaf of the shape carries a real tag (neither empty nor
the ignore marker), so every field participates in the mapping. -/
def allTagged : List Field → Bool
  | [] => true
  | .leaf tag _ :: rest => !(tag = "" || tag = "-") && allTagged rest
  | .embed sub :: rest => allTagged sub && allTagged rest

/-- cellsOK: every leaf value of the record is non-nil and its encoded cell
collides neither with the nil sentinel nor (for pointer fields) with the
empty string — the "unambiguous textual form" condition. -/
def cellsOK (opts : Options) : List Field → List Val → Bool
  | [], [] => true
  | .leaf _ ty :: rest, .leaf v :: vrest =>
    (noNil v && decide (formatField v opts ≠ opts.nilValue) &&
      (!isPtrT ty || decide (formatField v opts ≠ ""))) && cellsOK opts rest vrest
  | .embed sub :: rest, .strct vs :: vrest => cellsOK opts sub vs && cellsOK opts rest vrest
  | _, _ => false

/-- leafValAt reads the leaf value at an access path (a placeholder when the
path does not lead to a leaf). -/
def leafValAt (v : Val) (p : List Nat) : GoVal :=
  match navigate v p with
  | some (.leaf gv) => gv
  | _ => .base (.str "")

/-! ### Concrete fixtures used by the claim theorems -/

/-- exShape2: an embedded struct contributing tag "x", a direct "z", and a
direct "x" declared after the embedding (the override scenario). -/
def exShape2 : List Field :=
  [.embed [.leaf "x" (.base .str)], .leaf "z" (.base .str), .leaf "x" (.base .str)]

/-- exVal2: a value of exShape2. -/
def exVal2 (s1 s2 s3 : String) : Val :=
  .strct [.strct [.leaf (.base (.str s1))], .leaf (.base (.str s2)),
    .leaf (.base (.str s3))]

/-- exShapeC1: a shape with a tagged int field and an untagged int field
(the untagged field breaks the unrestricted round-trip claim). -/
def exShapeC1 : List Field :=
  [.leaf "a" (.base (.int 64)), .leaf "" (.base (.int 64))]

/-- exFieldsC1: field values 1 and 2 for exShapeC1 (all non-nil, all cells
unambiguous). -/
def exFieldsC1 : List Val :=
  [.leaf (.base (.int 64 1)), .leaf (.base (.int 64 2))]

/-- exShapeStr: a single tagged string field. -/
def exShapeStr : List Field :=
  [.leaf "a" (.base .str)]

/-- exShapeW: the round-trip witness shape: a string, an embedded optional
64-bit int, and a bool. -/
def exShapeW : List Field :=
  [.leaf "name" (.base .str), .embed [.leaf "age" (.ptr (.base (.int 64)))],
    .leaf "ok" (.base .bool)]

/-- exFieldsW: field values for exShapeW: "Alice", a present pointer to 23,
true. -/
def exFieldsW : List Val :=
  [.leaf (.base (.str "Alice")), .strct [.leaf (.ptr (some (.base (.int 64 23))))],
    .leaf (.base (.bool true))]

/-- exStateC2: a resolution state in which tag "x" is already bound (from an
earlier branch, at path [0,0], array 1 of the store) and tag "z" follows it
(path [1], array 2); array 3 is a freshly appended path [2] for a direct
field about to be resolved. -/
def exStateC2 : ResolveState :=
  ⟨[("x", ⟨⟨1, 2⟩, "x", 0⟩), ("z", ⟨⟨2, 1⟩, "z", 1⟩)], ["x", "z"], 2,
    ⟨[[], [0, 0], [1], [2]]⟩⟩

/-- exShapeC8: three levels of embedding whose innermost struct declares the
same tag "a" twice — the duplicate-embedded-tag scenario at the embedding
depth where the walk's append chain reaches spare backing capacity. -/
def exShapeC8 : List Field :=
  [.embed [.embed [.embed [.leaf "a" (.base .str), .leaf "a" (.base .str)]]]]

/-- exValC8: a record value of exShapeC8: the first-declared "a" field holds
s1, the duplicate holds s2. -/
def exValC8 (s1 s2 : String) : Val :=
  .strct [.strct [.strct [.strct [.leaf (.base (.str s1)), .leaf (.base (.str s2))]]]]

/-- exShapeDeep: three levels of embedding whose innermost struct declares
two distinct tags "a" and "b" — collision-free tagging at the embedding
depth where the walk's append chain reaches spare backing capacity. -/
def exShapeDeep : List Field :=
  [.embed [.embed [.embed [.leaf "a" (.base .str), .leaf "b" (.base .str)]]]]

/-- exFieldsDeep: field values "va" and "vb" for exShapeDeep (all non-nil,
all cells unambiguous). -/
def exFieldsDeep : List Val :=
  [.strct [.strct [.strct [.leaf (.base (.str "va")), .leaf (.base (.str "vb"))]]]]

theorem valLE_natDigitsRev (n : Nat) : valLE (natDigitsRev n) = n := by
  induction n using Nat.strong_induction_on with
  | _ n ih =>
    rw [natDigitsRev]
    by_cases h : n = 0
    · rw [if_pos h, h]; rfl
    · rw [if_neg h]
      simp only [valLE]
      rw [ih (n / 10) (Nat.div_lt_self (Nat.pos_of_ne_zero h) (by omega))]
      omega

theorem natDigitsRev_lt (n : Nat) : ∀ d ∈ natDigitsRev n, d < 10 := by
  induction n using Nat.strong_induction_on with
  | _ n ih =>
    rw [natDigitsRev]
    by_cases h : n = 0
    · rw [if_pos h]; simp
    · rw [if_neg h]
      simp only [List.mem_cons]
      rintro d (rfl | hd)
      · omega
      · exact ih (n / 10) (Nat.div_lt_self (Nat.pos_of_ne_zero h) (by omega)) d hd

theorem digitVal_digitChar (d : Nat) (hd : d < 10) : digitVal (digitChar d) = some d := by
  interval_cases d <;> decide

theorem digitChar_ne (d : Nat) : digitChar d ≠ '-' ∧ digitChar d ≠ '+' := by
  unfold digitChar
  split_ifs <;> decide

theorem parseDigitsAux_map (ds : List Nat) (hds : ∀ d ∈ ds, d < 10) (acc : Nat) :
    parseDigitsAux (ds.map digitChar) acc =
      some (ds.foldl (fun a d => a * 10 + d) acc) := by
  induction ds generalizing acc with
  | nil => rfl
  | cons d ds ih =>
    have hd : d < 10 := hds d (List.mem_cons_self d ds)
    simp only [List.map_cons, parseDigitsAux, digitVal_digitChar d hd, List.foldl_cons]
    exact ih (fun x hx => hds x (List.mem_cons_of_mem d hx)) (acc * 10 + d)

theorem foldl_reverse_valLE (L : List Nat) (acc : Nat) :
    L.reverse.foldl (fun a d => a * 10 + d) acc = acc * 10 ^ L.length + valLE L := by
  induction L generalizing acc with
  | nil => simp [valLE]
  | cons d ds ih =>
    simp only [List.reverse_cons, List.foldl_append, List.foldl_cons, List.foldl_nil,
      List.length_cons, valLE, ih]
    ring

theorem parseDigits_natChars (n : Nat) : parseDigits (natChars n) = some n := by
  by_cases h : n = 0
  · subst h; decide
  · have hne : natDigitsRev n ≠ [] := by
      rw [natDigitsRev]; simp [h]
    have hmem : ∀ d ∈ (natDigitsRev n).reverse, d < 10 :=
      fun d hd => natDigitsRev_lt n d (List.mem_reverse.mp hd)
    have hnc : natChars n = (natDigitsRev n).reverse.map digitChar := by
      rw [natChars, if_neg h]
    rcases List.exists_cons_of_ne_nil
      (show (natDigitsRev n).reverse.map digitChar ≠ [] by simp [hne]) with ⟨c, cs, hceq⟩
    have hstep : parseDigits (c :: cs) = parseDigitsAux (c :: cs) 0 := rfl
    rw [hnc, hceq, hstep, ← hceq, parseDigitsAux_map _ hmem 0, foldl_reverse_valLE,
      valLE_natDigitsRev]
    simp

theorem natChars_ne_nil (n : Nat) : natChars n ≠ [] := by
  by_cases h : n = 0
  · subst h; decide
  · rw [natChars, if_neg h]
    have : natDigitsRev n ≠ [] := by rw [natDigitsRev]; simp [h]
    simp [this]

theorem natChars_mem_ne (n : Nat) : ∀ c ∈ natChars n, c ≠ '-' ∧ c ≠ '+' := by
  by_cases h : n = 0
  · subst h; decide
  · rw [natChars, if_neg h]
    intro c hc
    rcases List.mem_map.mp hc with ⟨d, _, rfl⟩
    exact digitChar_ne d

theorem parseUint64_formatNat (n : Nat) (hn : n ≤ 2 ^ 64 - 1) :
    parseUint64 (formatNat n) = .ok n := by
  have hdata : (formatNat n).data = natChars n := rfl
  unfold parseUint64
  rw [hdata, parseDigits_natChars]
  simp only []
  rw [if_pos hn]

theorem parseInt64_cons (s : String) (c : Char) (rest : List Char)
    (h : s.data = c :: rest) :
    parseInt64 s =
      if c = '-' then intFromDigits s true (parseDigits rest)
      else if c = '+' then intFromDigits s false (parseDigits rest)
      else intFromDigits s false (parseDigits (c :: rest)) := by
  unfold parseInt64
  rw [h]

theorem parseInt64_formatInt (i : Int) (hlo : -(2 ^ 63) ≤ i) (hhi : i ≤ 2 ^ 63 - 1) :
    parseInt64 (formatInt i) = .ok i := by
  by_cases hneg : i < 0
  · have hdata : (formatInt i).data = '-' :: natChars (-i).toNat := by
      rw [formatInt, if_pos hneg]
    have hrange : (-i).toNat ≤ 2 ^ 63 := by omega
    have hval : (-(((-i).toNat : Nat) : Int)) = i := by omega
    rw [parseInt64_cons _ _ _ hdata, if_pos rfl, parseDigits_natChars]
    unfold intFromDigits
    simp only [if_pos rfl, if_true]
    rw [if_pos hrange, hval]
  · have hdata : (formatInt i).data = natChars i.toNat := by
      rw [formatInt, if_neg hneg]
    rcases List.exists_cons_of_ne_nil (natChars_ne_nil i.toNat) with ⟨c, cs, hceq⟩
    have hcne := natChars_mem_ne i.toNat c (hceq ▸ List.mem_cons_self c cs)
    have hrange : i.toNat ≤ 2 ^ 63 - 1 := by omega
    have hval : ((i.toNat : Nat) : Int) = i := by omega
    rw [parseInt64_cons _ _ _ (hdata.trans hceq), if_neg hcne.1, if_neg hcne.2, ← hceq,
      parseDigits_natChars]
    unfold intFromDigits
    simp only [Bool.false_eq_true, if_false]
    rw [if_pos hrange, hval]

theorem parseBool_formatBool (b : Bool) : parseBool (formatBool b) = .ok b := by
  cases b <;> rfl

theorem wrapSigned_eq_self (w : Nat) (i : Int) (hw : 0 < w)
    (hlo : -(2 ^ (w - 1)) ≤ i) (hhi : i < 2 ^ (w - 1)) : wrapSigned w i = i := by
  unfold wrapSigned
  have h2 : (2 : Int) ^ w = 2 ^ (w - 1) * 2 := by
    rw [← pow_succ]
    congr 1
    omega
  have hpos : (0 : Int) < 2 ^ (w - 1) := by positivity
  rw [Int.emod_eq_of_lt (by omega) (by omega)]
  omega

theorem wrapUnsigned_eq_self (w : Nat) (n : Nat) (h : n < 2 ^ w) :
    wrapUnsigned w n = n :=
  Nat.mod_eq_of_lt h

theorem formatField_ptr_some (inner : GoVal) (opts : Options) :
    formatField (.ptr (some inner)) opts = formatField inner opts := rfl

/-- setField_formatField: the cell-level round trip.  Decoding the encoding
of a well-formed value of a plain type returns exactly that value, provided
the encoded cell does not collide with the nil sentinel (nor, for a pointer
field, with the empty string) and no pointer level is nil.  `old` is
arbitrary: the prior field content does not influence the result. -/
theorem setField_formatField (ty : FieldType) (v old : GoVal) (opts : Options)
    (hp : plainType ty = true) (hwf : wfGo ty v = true) (hnn : noNil v = true)
    (hs : formatField v opts ≠ opts.nilValue)
    (he : isPtrT ty = true → formatField v opts ≠ "") :
    setField ty old (formatField v opts) opts = .ok v := by
  induction ty generalizing v old with
  | base t =>
    cases t with
    | str =>
      cases v with
      | base u =>
        cases u with
        | str s =>
          rw [setField, if_neg hs]
          rfl
        | int w v => simp [wfGo, wfBase] at hwf
        | uint w v => simp [wfGo, wfBase] at hwf
        | bool b => simp [wfGo, wfBase] at hwf
        | other r => simp [wfGo, wfBase] at hwf
      | hooked enc u => simp [wfGo] at hwf
      | ptr i => simp [wfGo] at hwf
    | int w =>
      cases v with
      | base u =>
        cases u with
        | str s => simp [wfGo, wfBase] at hwf
        | int w' i =>
          simp only [wfGo, wfBase, Bool.and_eq_true, decide_eq_true_eq] at hwf
          obtain ⟨⟨⟨hww, hvw⟩, hlo⟩, hhi⟩ := hwf
          have hw64 : w ≤ 64 ∧ 0 < w := by
            simp only [validWidth, Bool.or_eq_true, decide_eq_true_eq] at hvw
            omega
          have hbound : (2 : Int) ^ (w - 1) ≤ 2 ^ 63 := by
            apply pow_le_pow_right₀ (by omega)
            omega
          rw [setField, if_neg hs]
          have : formatField (GoVal.base (BaseVal.int w' i)) opts = formatInt i := rfl
          rw [this, setSwitch, parseInt64_formatInt i (by omega) (by omega)]
          simp only []
          rw [wrapSigned_eq_self w i hw64.2 hlo hhi, hww]
        | uint w' v => simp [wfGo, wfBase] at hwf
        | bool b => simp [wfGo, wfBase] at hwf
        | other r => simp [wfGo, wfBase] at hwf
      | hooked enc u => simp [wfGo] at hwf
      | ptr i => simp [wfGo] at hwf
    | uint w =>
      cases v with
      | base u =>
        cases u with
        | str s => simp [wfGo, wfBase] at hwf
        | int w' i => simp [wfGo, wfBase] at hwf
        | uint w' n =>
          simp only [wfGo, wfBase, Bool.and_eq_true, decide_eq_true_eq] at hwf
          obtain ⟨⟨hww, hvw⟩, hn⟩ := hwf
          have hw64 : w ≤ 64 := by
            simp only [validWidth, Bool.or_eq_true, decide_eq_true_eq] at hvw
            omega
          have hbound : (2 : Nat) ^ w ≤ 2 ^ 64 := Nat.pow_le_pow_right (by omega) hw64
          rw [setField, if_neg hs]
          have : formatField (GoVal.base (BaseVal.uint w' n)) opts = formatNat n := rfl
          rw [this, setSwitch, parseUint64_formatNat n (by omega)]
          simp only []
          rw [wrapUnsigned_eq_self w n hn, hww]
        | bool b => simp [wfGo, wfBase] at hwf
        | other r => simp [wfGo, wfBase] at hwf
      | hooked enc u => simp [wfGo] at hwf
      | ptr i => simp [wfGo] at hwf
    | bool =>
      cases v with
      | base u =>
        cases u with
        | str s => simp [wfGo, wfBase] at hwf
        | int w' i => simp [wfGo, wfBase] at hwf
        | uint w' n => simp [wfGo, wfBase] at hwf
        | bool b =>
          rw [setField, if_neg hs]
          have : formatField (GoVal.base (BaseVal.bool b)) opts = formatBool b := rfl
          rw [this, setSwitch, parseBool_formatBool b]
        | other r => simp [wfGo, wfBase] at hwf
      | hooked enc u => simp [wfGo] at hwf
      | ptr i => simp [wfGo] at hwf
    | other k => simp [plainType] at hp
  | hooked dec t => simp [plainType] at hp
  | ptr elem ih =>
    cases v with
    | base u => simp [wfGo] at hwf
    | hooked enc u => simp [wfGo] at hwf
    | ptr i =>
      cases i with
      | none => simp [noNil] at hnn
      | some inner =>
        have hwf' : wfGo elem inner = true := by simpa [wfGo] using hwf
        have hnn' : noNil inner = true := by simpa [noNil] using hnn
        have hfmt : formatField (GoVal.ptr (some inner)) opts = formatField inner opts := rfl
        have hne : formatField inner opts ≠ "" := by
          rw [← hfmt]; exact he rfl
        have hns : formatField inner opts ≠ opts.nilValue := by
          rw [← hfmt]; exact hs
        have hep : isPtrT elem = true → formatField inner opts ≠ "" := fun _ => hne
        have hrec := ih inner (derefOr old elem) (by simpa [plainType] using hp)
          hwf' hnn' hns hep
        rw [setField, hfmt, if_neg hns, if_neg hne, hrec]

theorem atIndex_shiftEntry (pre : List Nat) (i : Nat) (l : LeafEntry) :
    atIndex pre i (shiftEntry l) = atIndex pre (i + 1) l := by
  obtain ⟨path, tag, ty⟩ := l
  cases path with
  | nil => rfl
  | cons j p =>
    have h : i + (j + 1) = i + 1 + j := by omega
    simp [shiftEntry, atIndex, h]

theorem atIndex_consEntry (pre : List Nat) (i : Nat) (l : LeafEntry) :
    atIndex pre i (consEntry l) = atIndex (pre ++ [i]) 0 l := by
  obtain ⟨path, tag, ty⟩ := l
  cases path with
  | nil => simp [consEntry, atIndex]
  | cons j p => simp [consEntry, atIndex]

theorem atIndex_nil_zero (l : LeafEntry) : atIndex [] 0 l = l := by
  obtain ⟨path, tag, ty⟩ := l
  cases path with
  | nil => rfl
  | cons j p => simp [atIndex]

theorem tag_atIndex (pre : List Nat) (i : Nat) (l : LeafEntry) :
    (atIndex pre i l).tag = l.tag := rfl

theorem tag_shiftEntry (l : LeafEntry) : (shiftEntry l).tag = l.tag := rfl

theorem tag_consEntry (l : LeafEntry) : (consEntry l).tag = l.tag := rfl

/-! ### Association-list facts used to characterise getFieldMap -/

theorem updateAssoc_fresh {α : Type} (m : List (String × α)) (k : String) (v : α)
    (h : k ∉ m.map Prod.fst) : updateAssoc m k v = m ++ [(k, v)] := by
  induction m with
  | nil => rfl
  | cons a rest ih =>
    obtain ⟨k', v'⟩ := a
    simp only [List.map_cons, List.mem_cons] at h
    push_neg at h
    rw [updateAssoc, if_neg (fun hk => h.1 hk.symm), ih h.2, List.cons_append]

theorem removeFirst_of_not_mem (l : List String) (tag : String) (h : tag ∉ l) :
    removeFirst l tag = l := by
  induction l with
  | nil => rfl
  | cons t rest ih =>
    simp only [List.mem_cons] at h
    push_neg at h
    rw [removeFirst, if_neg (fun hk => h.1 hk.symm), ih h.2]

theorem hasTag_iff_mem (l : List String) (tag : String) : hasTag l tag = true ↔ tag ∈ l := by
  induction l with
  | nil => simp [hasTag]
  | cons t rest ih =>
    rw [hasTag]
    by_cases h : t = tag
    · simp [h]
    · rw [if_neg h, ih]
      simp only [List.mem_cons]
      constructor
      · exact Or.inr
      · rintro (rfl | hm)
        · exact absurd rfl h
        · exact hm

theorem nthArr_append_lt (l l' : List (List Nat)) :
    ∀ n : Nat, n < l.length → nthArr (l ++ l') n = nthArr l n := by
  induction l with
  | nil => intro n h; exact absurd h (Nat.not_lt_zero n)
  | cons a rest ih =>
    intro n h
    cases n with
    | zero => rfl
    | succ k => exact ih k (Nat.lt_of_succ_lt_succ h)

theorem nthArr_append_len (l : List (List Nat)) (v : List Nat) (l' : List (List Nat)) :
    nthArr (l ++ v :: l') l.length = v := by
  induction l with
  | nil => rfl
  | cons a rest ih => exact ih

theorem readSlice_length (m : Mem) (s : Slice) (hfull : capOf m s = s.len) :
    (readSlice m s).length = s.len := by
  rw [readSlice, List.length_take]
  rw [capOf] at hfull
  omega

theorem memExtends_trans (m₁ m₂ m₃ : Mem) (h1 : memExtends m₁ m₂)
    (h2 : memExtends m₂ m₃) : memExtends m₁ m₃ := by
  obtain ⟨s1, e1⟩ := h1
  obtain ⟨s2, e2⟩ := h2
  exact ⟨s1 ++ s2, by rw [e2, e1, List.append_assoc]⟩

theorem memExtends_length (m m' : Mem) (h : memExtends m m') :
    m.arrays.length ≤ m'.arrays.length := by
  obtain ⟨s, e⟩ := h
  rw [e, List.length_append]
  omega

/-- slice_extends: a header in range of a store keeps its backing array —
hence its capacity and reading — across a conservative store extension. -/
theorem slice_extends (m m' : Mem) (s : Slice) (hx : memExtends m m')
    (hv : s.arr < m.arrays.length) :
    s.arr < m'.arrays.length ∧ capOf m' s = capOf m s ∧
      readSlice m' s = readSlice m s := by
  obtain ⟨suf, e⟩ := hx
  have harr : readArr m' s.arr = readArr m s.arr := by
    rw [readArr, readArr, e, nthArr_append_lt m.arrays suf s.arr hv]
  refine ⟨?_, ?_, ?_⟩
  · rw [e, List.length_append]; omega
  · rw [capOf, capOf, harr]
  · rw [readSlice, readSlice, harr]

/-- goAppend_full: on a full slice (length = capacity) append allocates. -/
theorem goAppend_full (m : Mem) (s : Slice) (x : Nat) (hfull : capOf m s = s.len) :
    goAppend m s x =
      (⟨m.arrays.length, s.len + 1⟩,
        ⟨m.arrays ++ [readSlice m s ++ [x] ++
          List.replicate (growCap s.len - (s.len + 1)) 0]⟩) := by
  rw [goAppend, hfull, if_neg (lt_irrefl s.len)]

/-- goAppend_fresh: the allocating append extends the store conservatively;
the fresh header is in range, reads back the old elements plus the appended
one, and — when the old length was at most 1 — is itself full again. -/
theorem goAppend_fresh (m : Mem) (s : Slice) (x : Nat) (pre : List Nat)
    (hfull : capOf m s = s.len) (hread : readSlice m s = pre) :
    ∃ m' : Mem,
      goAppend m s x = (⟨m.arrays.length, s.len + 1⟩, m') ∧
      memExtends m m' ∧
      m.arrays.length < m'.arrays.length ∧
      readSlice m' ⟨m.arrays.length, s.len + 1⟩ = pre ++ [x] ∧
      (s.len ≤ 1 → capOf m' ⟨m.arrays.length, s.len + 1⟩ = s.len + 1) := by
  have hlen : pre.length = s.len := by
    rw [← hread]
    exact readSlice_length m s hfull
  obtain ⟨A, hA⟩ : ∃ A : Mem,
      A = ⟨m.arrays ++ [pre ++ [x] ++
        List.replicate (growCap s.len - (s.len + 1)) 0]⟩ := ⟨_, rfl⟩
  have harr : A.arrays = m.arrays ++ [pre ++ [x] ++
      List.replicate (growCap s.len - (s.len + 1)) 0] := by
    rw [hA]
  refine ⟨A, ?_, ⟨_, harr⟩, ?_, ?_, ?_⟩
  · rw [goAppend_full m s x hfull, hread, hA]
  · rw [harr, List.length_append]
    simp
  · rw [readSlice, readArr, harr, nthArr_append_len]
    have h1 : (pre ++ [x]).length = s.len + 1 := by
      simp [hlen]
    rw [← h1, List.take_left]
  · intro hs
    rw [capOf, readArr, harr, nthArr_append_len]
    simp only [List.length_append, List.length_replicate, List.length_cons,
      List.length_nil, hlen]
    rw [growCap]
    split <;> omega

theorem bindsLeaves_mono (m m' : Mem) (hx : memExtends m m') :
    ∀ (bs : List (String × FieldInfo)) (L : List LeafEntry) (p : Nat),
      bindsLeaves m bs L p → bindsLeaves m' bs L p := by
  intro bs
  induction bs with
  | nil =>
    intro L p hb
    cases L with
    | nil => exact hb
    | cons l L' => simp only [bindsLeaves] at hb
  | cons a bs ih =>
    obtain ⟨k, info⟩ := a
    intro L p hb
    cases L with
    | nil => simp only [bindsLeaves] at hb
    | cons l L' =>
      simp only [bindsLeaves] at hb ⊢
      obtain ⟨h1, h2, h3, h4, h5, h6⟩ := hb
      obtain ⟨hv', _, hr'⟩ := slice_extends m m' info.index hx h4
      exact ⟨h1, h2, h3, hv', hr'.trans h5, ih L' (p + 1) h6⟩

theorem bindsLeaves_keys (m : Mem) :
    ∀ (bs : List (String × FieldInfo)) (L : List LeafEntry) (p : Nat),
      bindsLeaves m bs L p → bs.map Prod.fst = L.map LeafEntry.tag := by
  intro bs
  induction bs with
  | nil =>
    intro L p hb
    cases L with
    | nil => rfl
    | cons l L' => simp only [bindsLeaves] at hb
  | cons a bs ih =>
    obtain ⟨k, info⟩ := a
    intro L p hb
    cases L with
    | nil => simp only [bindsLeaves] at hb
    | cons l L' =>
      simp only [bindsLeaves] at hb
      simp [hb.1, ih L' (p + 1) hb.2.2.2.2.2]

theorem bindsLeaves_append (m : Mem) :
    ∀ (bs₁ : List (String × FieldInfo)) (L₁ : List LeafEntry) (p : Nat)
      (bs₂ : List (String × FieldInfo)) (L₂ : List LeafEntry),
      bindsLeaves m bs₁ L₁ p → bindsLeaves m bs₂ L₂ (p + L₁.length) →
      bindsLeaves m (bs₁ ++ bs₂) (L₁ ++ L₂) p := by
  intro bs₁
  induction bs₁ with
  | nil =>
    intro L₁ p bs₂ L₂ h1 h2
    cases L₁ with
    | nil => simpa using h2
    | cons l L' => simp only [bindsLeaves] at h1
  | cons a bs ih =>
    obtain ⟨k, info⟩ := a
    intro L₁ p bs₂ L₂ h1 h2
    cases L₁ with
    | nil => simp only [bindsLeaves] at h1
    | cons l L' =>
      simp only [bindsLeaves] at h1
      simp only [List.cons_append, bindsLeaves]
      refine ⟨h1.1, h1.2.1, h1.2.2.1, h1.2.2.2.1, h1.2.2.2.2.1, ?_⟩
      have hlen : p + (l :: L').length = (p + 1) + L'.length := by
        rw [List.length_cons]; omega
      rw [hlen] at h2
      exact ih L' (p + 1) bs₂ L₂ h1.2.2.2.2.2 h2

theorem lookupAssoc_bindsLeaves (m : Mem) :
    ∀ (bs : List (String × FieldInfo)) (L : List LeafEntry) (p : Nat),
      (L.map LeafEntry.tag).Nodup → bindsLeaves m bs L p →
      ∀ l ∈ L, ∃ info, lookupAssoc bs l.tag = some info ∧
        readSlice m info.index = l.path := by
  intro bs
  induction bs with
  | nil =>
    intro L p _ hb l hl
    cases L with
    | nil => cases hl
    | cons l0 L' => simp only [bindsLeaves] at hb
  | cons a bs ih =>
    obtain ⟨k, info⟩ := a
    intro L p hnd hb l hl
    cases L with
    | nil => simp only [bindsLeaves] at hb
    | cons l0 L' =>
      simp only [bindsLeaves] at hb
      rcases List.mem_cons.mp hl with rfl | hmem
      · refine ⟨info, ?_, hb.2.2.2.2.1⟩
        rw [lookupAssoc, if_pos hb.1]
      · have hne : k ≠ l.tag := by
          rw [hb.1]
          intro hk
          rw [List.map_cons, List.nodup_cons] at hnd
          exact hnd.1 (hk ▸ List.mem_map_of_mem LeafEntry.tag hmem)
        rw [lookupAssoc, if_neg hne]
        exact ih L' (p + 1)
          (by rw [List.map_cons, List.nodup_cons] at hnd; exact hnd.2)
          hb.2.2.2.2.2 l hmem

/-- resolveLeaf_store: resolving a fresh, non-skipped tag appends the
binding and the ordered tag, leaving the store untouched. -/
theorem resolveLeaf_store (st : ResolveState) (tag : String) (c : Slice) (emb : Bool)
    (h1 : ¬(tag = "" || tag = "-") = true) (h2 : tag ∉ st.orderedTags)
    (h3 : tag ∉ st.fields.map Prod.fst) :
    resolveLeaf st tag c emb =
      ⟨st.fields ++ [(tag, ⟨c, tag, st.pos⟩)], st.orderedTags ++ [tag],
        st.pos + 1, st.mem⟩ := by
  rw [resolveLeaf, if_neg h1]
  have hht : hasTag st.orderedTags tag = false := by
    rw [← Bool.not_eq_true, hasTag_iff_mem]
    exact h2
  rw [hht, Bool.and_false, if_neg (by simp), updateAssoc_fresh st.fields tag _ h3,
    removeFirst_of_not_mem st.orderedTags tag h2]

theorem tags_map_shiftEntry (X : List LeafEntry) :
    (X.map shiftEntry).map LeafEntry.tag = X.map LeafEntry.tag := by
  rw [List.map_map]; rfl

theorem tags_map_consEntry (X : List LeafEntry) :
    (X.map consEntry).map LeafEntry.tag = X.map LeafEntry.tag := by
  rw [List.map_map]; rfl

theorem tags_map_atIndex (pre : List Nat) (i : Nat) (X : List LeafEntry) :
    (X.map (atIndex pre i)).map LeafEntry.tag = X.map LeafEntry.tag := by
  rw [List.map_map]; rfl

theorem map_atIndex_shiftEntry (pre : List Nat) (i : Nat) (X : List LeafEntry) :
    (X.map shiftEntry).map (atIndex pre i) = X.map (atIndex pre (i + 1)) := by
  rw [List.map_map]
  exact List.map_congr_left fun l _ => atIndex_shiftEntry pre i l

theorem map_atIndex_consEntry (pre : List Nat) (i : Nat) (X : List LeafEntry) :
    (X.map consEntry).map (atIndex pre i) = X.map (atIndex (pre ++ [i]) 0) := by
  rw [List.map_map]
  exact List.map_congr_left fun l _ => atIndex_consEntry pre i l

/-- addFields_spec characterises the collision-free, alias-free walk: when
the tags of the leaves of `fs` are pairwise distinct, none of them is
already present in the state, the index slice is a full in-range header of
length at most 2 reading back `pre`, and the walk over `fs` stays below the
spare-capacity threshold (`noAliasWalk`), `addFields` appends one binding
and one ordered tag per leaf, in declaration order, positions counting up
from the current counter; the store grows conservatively (existing backing
arrays untouched) and each stored slice reads back its leaf's access path
in the final store. -/
theorem addFields_spec (fs : List Field) (index : Slice) (i : Nat) (emb : Bool)
    (st : ResolveState) : ∀ pre : List Nat,
    ((leavesOfFields fs).map LeafEntry.tag).Nodup →
    (∀ l ∈ leavesOfFields fs, l.tag ∉ st.orderedTags) →
    (∀ l ∈ leavesOfFields fs, l.tag ∉ st.fields.map Prod.fst) →
    index.arr < st.mem.arrays.length →
    capOf st.mem index = index.len →
    readSlice st.mem index = pre →
    index.len ≤ 2 →
    noAliasWalk index.len fs = true →
    ∃ (bs : List (String × FieldInfo)) (m' : Mem),
      addFields fs index i emb st =
        ⟨st.fields ++ bs,
          st.orderedTags ++ (leavesOfFields fs).map LeafEntry.tag,
          st.pos + (leavesOfFields fs).length, m'⟩ ∧
      memExtends st.mem m' ∧
      bindsLeaves m' bs ((leavesOfFields fs).map (atIndex pre i)) st.pos := by
  induction fs, index, i, emb, st using addFields.induct with
  | case1 index i isEmb st =>
    intro pre _ _ _ _ _ _ _ _
    refine ⟨[], st.mem, ?_, ⟨[], by rw [List.append_nil]⟩, ?_⟩
    · rw [addFields]
      simp [leavesOfFields]
    · simp [leavesOfFields, bindsLeaves]
  | case2 tag ty rest index i isEmb st ih =>
    intro pre hnd hft hff hv hfull hread hlen hdepth
    obtain ⟨m₂, hga, hx₂, hlt₂, hrd₂, hcap₂⟩ :=
      goAppend_fresh st.mem index i pre hfull hread
    have hg1 : (goAppend st.mem index i).1 =
        ⟨st.mem.arrays.length, index.len + 1⟩ := by
      rw [hga]
    have hg2 : (goAppend st.mem index i).2 = m₂ := by
      rw [hga]
    obtain ⟨hv₂, hc₂, hr₂⟩ := slice_extends st.mem m₂ index hx₂ hv
    have hdepth' : noAliasWalk index.len rest = true := by
      rw [noAliasWalk] at hdepth
      exact hdepth
    rw [hg1, hg2] at ih
    by_cases hskip : (tag = "" || tag = "-") = true
    · have hleq : leavesOfFields (Field.leaf tag ty :: rest) =
          (leavesOfFields rest).map shiftEntry := by
        rw [leavesOfFields, if_pos hskip, List.nil_append]
      rw [hleq] at hnd hft hff
      have hres : resolveLeaf ⟨st.fields, st.orderedTags, st.pos, m₂⟩ tag
          ⟨st.mem.arrays.length, index.len + 1⟩ isEmb =
          ⟨st.fields, st.orderedTags, st.pos, m₂⟩ := by
        rw [resolveLeaf, if_pos hskip]
      rw [hres] at ih
      obtain ⟨bs, m', hmain, hxm, hbind⟩ := ih pre
        (by rwa [tags_map_shiftEntry] at hnd)
        (fun l hl => hft (shiftEntry l) (List.mem_map_of_mem shiftEntry hl))
        (fun l hl => hff (shiftEntry l) (List.mem_map_of_mem shiftEntry hl))
        hv₂ (by rw [hc₂, hfull]) (by rw [hr₂, hread]) hlen hdepth'
      refine ⟨bs, m', ?_, memExtends_trans _ _ _ hx₂ hxm, ?_⟩
      · rw [addFields, hg1, hg2, hres, hmain, hleq, tags_map_shiftEntry,
          List.length_map]
      · rw [hleq, map_atIndex_shiftEntry]
        exact hbind
    · have hleq : leavesOfFields (Field.leaf tag ty :: rest) =
          ⟨[0], tag, ty⟩ :: (leavesOfFields rest).map shiftEntry := by
        rw [leavesOfFields, if_neg hskip, List.singleton_append]
      rw [hleq] at hnd hft hff
      have hhead : (⟨[0], tag, ty⟩ : LeafEntry) ∈
          (⟨[0], tag, ty⟩ : LeafEntry) :: (leavesOfFields rest).map shiftEntry :=
        List.mem_cons_self _ _
      have htagfree : tag ∉ st.orderedTags := hft _ hhead
      have hkeyfree : tag ∉ st.fields.map Prod.fst := hff _ hhead
      have htagrest : tag ∉ (leavesOfFields rest).map LeafEntry.tag := by
        rw [List.map_cons, tags_map_shiftEntry, List.nodup_cons] at hnd
        exact hnd.1
      have hndrest : ((leavesOfFields rest).map LeafEntry.tag).Nodup := by
        rw [List.map_cons, tags_map_shiftEntry, List.nodup_cons] at hnd
        exact hnd.2
      have hres : resolveLeaf ⟨st.fields, st.orderedTags, st.pos, m₂⟩ tag
          ⟨st.mem.arrays.length, index.len + 1⟩ isEmb =
          ⟨st.fields ++
              [(tag, ⟨⟨st.mem.arrays.length, index.len + 1⟩, tag, st.pos⟩)],
            st.orderedTags ++ [tag], st.pos + 1, m₂⟩ :=
        resolveLeaf_store ⟨st.fields, st.orderedTags, st.pos, m₂⟩ tag
          ⟨st.mem.arrays.length, index.len + 1⟩ isEmb hskip htagfree hkeyfree
      rw [hres] at ih
      obtain ⟨bs', m', hmain, hxm, hbind⟩ := ih pre hndrest
        (fun l hl => by
          have h1 := hft (shiftEntry l)
            (List.mem_cons_of_mem _ (List.mem_map_of_mem shiftEntry hl))
          show l.tag ∉ st.orderedTags ++ [tag]
          simp only [List.mem_append, List.mem_singleton]
          rintro (hm | hm)
          · exact h1 hm
          · exact htagrest (hm ▸ List.mem_map_of_mem LeafEntry.tag hl))
        (fun l hl => by
          have h1 := hff (shiftEntry l)
            (List.mem_cons_of_mem _ (List.mem_map_of_mem shiftEntry hl))
          show l.tag ∉ (st.fields ++
            [(tag, (⟨⟨st.mem.arrays.length, index.len + 1⟩, tag, st.pos⟩ :
              FieldInfo))]).map Prod.fst
          simp only [List.map_append, List.map_cons, List.map_nil, List.mem_append,
            List.mem_singleton]
          rintro (hm | hm)
          · exact h1 hm
          · exact htagrest (hm ▸ List.mem_map_of_mem LeafEntry.tag hl))
        hv₂ (by rw [hc₂, hfull]) (by rw [hr₂, hread]) hlen hdepth'
      refine ⟨(tag, ⟨⟨st.mem.arrays.length, index.len + 1⟩, tag, st.pos⟩) :: bs',
        m', ?_, memExtends_trans _ _ _ hx₂ hxm, ?_⟩
      · rw [addFields, hg1, hg2, hres, hmain, hleq]
        simp only [List.map_cons, tags_map_shiftEntry, List.length_cons,
          List.length_map, ResolveState.mk.injEq]
        refine ⟨?_, ?_, ?_, trivial⟩
        · rw [List.append_assoc, List.singleton_append]
        · rw [List.append_assoc, List.singleton_append]
        · omega
      · rw [hleq]
        simp only [List.map_cons]
        have hhd : atIndex pre i (⟨[0], tag, ty⟩ : LeafEntry) =
            ⟨pre ++ [i], tag, ty⟩ := by
          simp [atIndex]
        rw [hhd, map_atIndex_shiftEntry]
        simp only [bindsLeaves]
        refine ⟨trivial, trivial, trivial, ?_, ?_, hbind⟩
        · exact lt_of_lt_of_le hlt₂ (memExtends_length _ _ hxm)
        · obtain ⟨_, _, hr'⟩ := slice_extends m₂ m'
            ⟨st.mem.arrays.length, index.len + 1⟩ hxm hlt₂
          rw [hr', hrd₂]
  | case3 sub rest index i isEmb st ih1 ih2 =>
    intro pre hnd hft hff hv hfull hread hlen hdepth
    have hdepth3 : (index.len ≤ 1 ∧ noAliasWalk (index.len + 1) sub = true) ∧
        noAliasWalk index.len rest = true := by
      rw [noAliasWalk] at hdepth
      simp only [Bool.and_eq_true, decide_eq_true_eq] at hdepth
      exact hdepth
    obtain ⟨⟨hk1, hk2⟩, hk3⟩ := hdepth3
    obtain ⟨m₂, hga, hx₂, hlt₂, hrd₂, hcap₂⟩ :=
      goAppend_fresh st.mem index i pre hfull hread
    have hg1 : (goAppend st.mem index i).1 =
        ⟨st.mem.arrays.length, index.len + 1⟩ := by
      rw [hga]
    have hg2 : (goAppend st.mem index i).2 = m₂ := by
      rw [hga]
    have hcap₂' : capOf m₂ ⟨st.mem.arrays.length, index.len + 1⟩ = index.len + 1 :=
      hcap₂ hk1
    have hleq : leavesOfFields (Field.embed sub :: rest) =
        (leavesOfFields sub).map consEntry ++ (leavesOfFields rest).map shiftEntry := by
      rw [leavesOfFields]
    rw [hleq] at hnd hft hff
    have hnd' := hnd
    rw [List.map_append, tags_map_consEntry, tags_map_shiftEntry,
      List.nodup_append] at hnd'
    obtain ⟨hndsub, hndrest, hdisj⟩ := hnd'
    rw [hg1, hg2] at ih1 ih2
    obtain ⟨bs₁, m₁, hsub, hxm₁, hbind₁⟩ := ih1 (pre ++ [i]) hndsub
      (fun l hl => hft (consEntry l)
        (List.mem_append_left _ (List.mem_map_of_mem consEntry hl)))
      (fun l hl => hff (consEntry l)
        (List.mem_append_left _ (List.mem_map_of_mem consEntry hl)))
      hlt₂ hcap₂' hrd₂ (by show index.len + 1 ≤ 2; omega) hk2
    rw [hsub] at ih2
    have hxs : memExtends st.mem m₁ := memExtends_trans _ _ _ hx₂ hxm₁
    obtain ⟨hv₁, hc₁, hr₁⟩ := slice_extends st.mem m₁ index hxs hv
    obtain ⟨bs₂, m', hmain, hxm₂, hbind₂⟩ := ih2 pre hndrest
      (fun l hl => by
        have h1 := hft (shiftEntry l)
          (List.mem_append_right _ (List.mem_map_of_mem shiftEntry hl))
        have h2 : l.tag ∉ (leavesOfFields sub).map LeafEntry.tag := by
          intro hm
          exact hdisj hm (List.mem_map_of_mem LeafEntry.tag hl)
        show l.tag ∉ st.orderedTags ++ (leavesOfFields sub).map LeafEntry.tag
        simp only [List.mem_append]
        rintro (hm | hm)
        · exact h1 hm
        · exact h2 hm)
      (fun l hl => by
        have h1 := hff (shiftEntry l)
          (List.mem_append_right _ (List.mem_map_of_mem shiftEntry hl))
        have h2 : l.tag ∉ (leavesOfFields sub).map LeafEntry.tag := by
          intro hm
          exact hdisj hm (List.mem_map_of_mem LeafEntry.tag hl)
        show l.tag ∉ (st.fields ++ bs₁).map Prod.fst
        rw [List.map_append, bindsLeaves_keys m₁ bs₁ _ _ hbind₁, tags_map_atIndex]
        simp only [List.mem_append]
        rintro (hm | hm)
        · exact h1 hm
        · exact h2 hm)
      hv₁ (by rw [hc₁, hfull]) (by rw [hr₁, hread]) hlen hk3
    refine ⟨bs₁ ++ bs₂, m', ?_, memExtends_trans _ _ _ hxs hxm₂, ?_⟩
    · rw [addFields, hg1, hg2, hsub, hmain, hleq]
      simp only [List.map_append, tags_map_consEntry, tags_map_shiftEntry,
        List.length_append, List.length_map, ResolveState.mk.injEq]
      refine ⟨?_, ?_, ?_, trivial⟩
      · rw [List.append_assoc]
      · rw [List.append_assoc]
      · omega
    · rw [hleq, List.map_append, map_atIndex_consEntry, map_atIndex_shiftEntry]
      apply bindsLeaves_append m' bs₁ _ st.pos bs₂ _
        (bindsLeaves_mono m₁ m' hxm₂ bs₁ _ st.pos hbind₁)
      rw [List.length_map]
      exact hbind₂

/-- getFieldMap_spec: on a shape whose leaf tags are pairwise distinct and
whose embedded structs nest at most two deep, the resolved map binds each
tag, in declaration order, to a slice that reads back the leaf's access
path in the final store, and orderedTags is exactly the leaf tags in
declaration order. -/
theorem getFieldMap_spec (shape : List Field)
    (hnd : ((leavesOfFields shape).map LeafEntry.tag).Nodup)
    (hdepth : noAliasWalk 0 shape = true) :
    ∃ (bs : List (String × FieldInfo)) (m' : Mem),
      getFieldMap shape =
        ⟨bs, (leavesOfFields shape).map LeafEntry.tag,
          (leavesOfFields shape).length, m'⟩ ∧
      bindsLeaves m' bs (leavesOfFields shape) 0 := by
  obtain ⟨bs, m', hmain, _, hbind⟩ :=
    addFields_spec shape nilSlice 0 false ⟨[], [], 0, memNil⟩ [] hnd
      (fun l _ => by simp) (fun l _ => by simp)
      (by decide) rfl rfl (by decide) hdepth
  refine ⟨bs, m', ?_, ?_⟩
  · rw [getFieldMap, hmain]
    simp
  · have hid : (leavesOfFields shape).map (atIndex [] 0) = leavesOfFields shape := by
      have h1 : (leavesOfFields shape).map (atIndex [] 0) =
          (leavesOfFields shape).map id :=
        List.map_congr_left fun l _ => atIndex_nil_zero l
      rw [h1, List.map_id]
    rw [hid] at hbind
    exact hbind

/-! ### The fieldMap invariant (claim C7's machinery) -/

theorem lookupAssoc_updateAssoc {α : Type} (m : List (String × α)) (k t : String) (v : α) :
    lookupAssoc (updateAssoc m k v) t = if t = k then some v else lookupAssoc m t := by
  induction m with
  | nil =>
    by_cases h : t = k
    · rw [if_pos h, h]
      show (if k = k then some v else none) = some v
      rw [if_pos rfl]
    · rw [if_neg h]
      show (if k = t then some v else none) = none
      rw [if_neg (fun hk => h hk.symm)]
  | cons a rest ih =>
    obtain ⟨k', v'⟩ := a
    by_cases hk : k' = k
    · subst hk
      rw [updateAssoc, if_pos rfl]
      by_cases ht : t = k'
      · subst ht
        rw [if_pos rfl]
        show (if t = t then some v else _) = some v
        rw [if_pos rfl]
      · rw [if_neg ht]
        show (if k' = t then some v else lookupAssoc rest t) =
          if k' = t then some v' else lookupAssoc rest t
        rw [if_neg (fun hk => ht hk.symm), if_neg (fun hk => ht hk.symm)]
    · rw [updateAssoc, if_neg hk]
      show (if k' = t then some v' else lookupAssoc (updateAssoc rest k v) t) =
        if t = k then some v else (if k' = t then some v' else lookupAssoc rest t)
      by_cases ht : k' = t
      · rw [if_pos ht, if_neg (fun h2 => hk (ht.trans h2)), if_pos ht]
      · rw [if_neg ht, ih, if_neg ht]

theorem mem_of_mem_removeFirst (l : List String) (tag t : String)
    (h : t ∈ removeFirst l tag) : t ∈ l := by
  induction l with
  | nil => cases h
  | cons a rest ih =>
    rw [removeFirst] at h
    by_cases ha : a = tag
    · rw [if_pos ha] at h
      exact List.mem_cons_of_mem a h
    · rw [if_neg ha] at h
      rcases List.mem_cons.mp h with rfl | hm
      · exact List.mem_cons_self _ _
      · exact List.mem_cons_of_mem a (ih hm)

theorem mem_removeFirst_of_ne (l : List String) (tag t : String) (ht : t ≠ tag)
    (h : t ∈ l) : t ∈ removeFirst l tag := by
  induction l with
  | nil => cases h
  | cons a rest ih =>
    rw [removeFirst]
    by_cases ha : a = tag
    · rw [if_pos ha]
      rcases List.mem_cons.mp h with rfl | hm
      · exact absurd ha ht
      · exact hm
    · rw [if_neg ha]
      rcases List.mem_cons.mp h with rfl | hm
      · exact List.mem_cons_self _ _
      · exact List.mem_cons_of_mem a (ih hm)

theorem nodup_removeFirst (l : List String) (tag : String) (h : l.Nodup) :
    (removeFirst l tag).Nodup := by
  induction l with
  | nil => exact List.nodup_nil
  | cons a rest ih =>
    rw [List.nodup_cons] at h
    rw [removeFirst]
    by_cases ha : a = tag
    · rw [if_pos ha]
      exact h.2
    · rw [if_neg ha]
      rw [List.nodup_cons]
      exact ⟨fun hm => h.1 (mem_of_mem_removeFirst rest tag a hm), ih h.2⟩

theorem not_mem_removeFirst (l : List String) (tag : String) (h : l.Nodup) :
    tag ∉ removeFirst l tag := by
  induction l with
  | nil => simp [removeFirst]
  | cons a rest ih =>
    rw [List.nodup_cons] at h
    rw [removeFirst]
    by_cases ha : a = tag
    · rw [if_pos ha]
      exact ha ▸ h.1
    · rw [if_neg ha]
      intro hm
      rcases List.mem_cons.mp hm with rfl | hm2
      · exact ha rfl
      · exact ih h.2 hm2

theorem resolveLeaf_inv (st : ResolveState) (tag : String) (idx : Slice)
    (emb : Bool) (h : stInv st) : stInv (resolveLeaf st tag idx emb) := by
  obtain ⟨hnd, hkeys⟩ := h
  rw [resolveLeaf]
  by_cases h1 : (tag = "" || tag = "-") = true
  · rw [if_pos h1]
    exact ⟨hnd, hkeys⟩
  · rw [if_neg h1]
    by_cases h2 : (emb && hasTag st.orderedTags tag) = true
    · rw [if_pos h2]
      exact ⟨hnd, hkeys⟩
    · rw [if_neg h2]
      constructor
      · apply List.Nodup.append (nodup_removeFirst _ _ hnd) (List.nodup_singleton tag)
        intro t htm hts
        rw [List.mem_singleton] at hts
        exact not_mem_removeFirst st.orderedTags tag hnd (hts ▸ htm)
      · intro t
        show (lookupAssoc (updateAssoc st.fields tag ⟨idx, tag, st.pos⟩) t).isSome = true ↔
          t ∈ removeFirst st.orderedTags tag ++ [tag]
        rw [lookupAssoc_updateAssoc, List.mem_append, List.mem_singleton]
        by_cases ht : t = tag
        · rw [if_pos ht]
          simp [ht]
        · rw [if_neg ht, hkeys t]
          constructor
          · exact fun hm => Or.inl (mem_removeFirst_of_ne _ _ _ ht hm)
          · rintro (hm | hm)
            · exact mem_of_mem_removeFirst _ _ _ hm
            · exact absurd hm ht

theorem addFields_inv (fs : List Field) (index : Slice) (i : Nat) (emb : Bool)
    (st : ResolveState) (h : stInv st) : stInv (addFields fs index i emb st) := by
  induction fs, index, i, emb, st using addFields.induct with
  | case1 index i isEmb st =>
    rw [addFields]
    exact h
  | case2 tag ty rest index i isEmb st ih =>
    rw [addFields]
    exact ih (resolveLeaf_inv
      ⟨st.fields, st.orderedTags, st.pos, (goAppend st.mem index i).2⟩ tag
      (goAppend st.mem index i).1 isEmb h)
  | case3 sub rest index i isEmb st ih1 ih2 =>
    rw [addFields]
    exact ih2 (ih1 h)

theorem incompB_symm (p q : List Nat) (h : incompB p q = true) : incompB q p = true := by
  induction p generalizing q with
  | nil => cases h
  | cons a p ih =>
    cases q with
    | nil => cases h
    | cons b q =>
      rw [incompB] at h ⊢
      by_cases hab : a = b
      · rw [if_pos hab] at h
        rw [if_pos hab.symm]
        exact ih q h
      · rw [if_neg (fun hb => hab hb.symm)]

theorem getElem?_modifyAt_ne {α : Type} (f : α → α) (i j : Nat) (l : List α)
    (h : i ≠ j) : (modifyAt f i l)[j]? = l[j]? := by
  induction l generalizing i j with
  | nil => cases i <;> rfl
  | cons a rest ih =>
    cases i with
    | zero =>
      cases j with
      | zero => exact absurd rfl h
      | succ j => simp [modifyAt]
    | succ i =>
      cases j with
      | zero => simp [modifyAt]
      | succ j =>
        rw [modifyAt]
        simp only [List.getElem?_cons_succ]
        exact ih i j (fun hij => h (hij ▸ rfl))

theorem getElem?_modifyAt_eq {α : Type} (f : α → α) (i : Nat) (l : List α) :
    (modifyAt f i l)[i]? = (l[i]?).map f := by
  induction l generalizing i with
  | nil => cases i <;> rfl
  | cons a rest ih =>
    cases i with
    | zero => simp [modifyAt]
    | succ i =>
      rw [modifyAt]
      simp only [List.getElem?_cons_succ]
      exact ih i

theorem navigate_setAtVal_same (acc : Val) (p : List Nat) (old nv : GoVal)
    (h : navigate acc p = some (.leaf old)) :
    navigate (setAtVal acc p nv) p = some (.leaf nv) := by
  induction p generalizing acc with
  | nil =>
    rw [navigate] at h
    obtain rfl : acc = Val.leaf old := Option.some.inj h
    rfl
  | cons i p ih =>
    cases acc with
    | leaf v => rw [navigate] at h; cases h
    | strct fs =>
      rw [navigate] at h
      cases hfi : fs[i]? with
      | none => rw [hfi] at h; cases h
      | some a =>
        rw [hfi] at h
        rw [setAtVal, navigate, getElem?_modifyAt_eq, hfi, Option.map_some']
        exact ih a h

theorem navigate_setAtVal_other (acc : Val) (p q : List Nat) (nv : GoVal)
    (h : incompB p q = true) :
    navigate (setAtVal acc q nv) p = navigate acc p := by
  induction p generalizing acc q with
  | nil => cases h
  | cons i p ih =>
    cases q with
    | nil => cases h
    | cons j q =>
      cases acc with
      | leaf v => rfl
      | strct fs =>
        rw [incompB] at h
        rw [setAtVal, navigate, navigate]
        by_cases hij : i = j
        · rw [if_pos hij] at h
          subst hij
          rw [getElem?_modifyAt_eq]
          cases hfi : fs[i]? with
          | none => rfl
          | some a =>
            rw [Option.map_some']
            exact ih a q h
        · rw [getElem?_modifyAt_ne _ _ _ _ (fun hji => hij hji.symm)]

/-! ### Facts about the enumerated leaves -/

theorem leaves_path_ne_nil (fs : List Field) :
    ∀ l ∈ leavesOfFields fs, l.path ≠ [] := by
  induction fs using leavesOfFields.induct with
  | case1 => intro l hl; rw [leavesOfFields] at hl; cases hl
  | case2 tag ty rest ih =>
    intro l hl
    rw [leavesOfFields] at hl
    rcases List.mem_append.mp hl with hm | hm
    · by_cases hskip : (tag = "" || tag = "-") = true
      · rw [if_pos hskip] at hm; cases hm
      · rw [if_neg hskip, List.mem_singleton] at hm
        subst hm
        simp
    · rcases List.mem_map.mp hm with ⟨l', hl', rfl⟩
      have := ih l' hl'
      obtain ⟨path, ltag, lty⟩ := l'
      cases path with
      | nil => exact absurd rfl this
      | cons j p => simp [shiftEntry]
  | case3 sub rest ih2 ih1 =>
    intro l hl
    rw [leavesOfFields] at hl
    rcases List.mem_append.mp hl with hm | hm
    · rcases List.mem_map.mp hm with ⟨l', hl', rfl⟩
      simp [consEntry]
    · rcases List.mem_map.mp hm with ⟨l', hl', rfl⟩
      have := ih1 l' hl'
      obtain ⟨path, ltag, lty⟩ := l'
      cases path with
      | nil => exact absurd rfl this
      | cons j p => simp [shiftEntry]

theorem typeAt_cons_succ (f : Field) (rest : List Field) (j : Nat) (p : List Nat) :
    typeAt (f :: rest) ((j + 1) :: p) = typeAt rest (j :: p) := by
  simp only [typeAt, List.getElem?_cons_succ]

theorem typeAt_leaves (fs : List Field) :
    ∀ l ∈ leavesOfFields fs, typeAt fs l.path = some l.ty := by
  induction fs using leavesOfFields.induct with
  | case1 => intro l hl; rw [leavesOfFields] at hl; cases hl
  | case2 tag ty rest ih =>
    intro l hl
    rw [leavesOfFields] at hl
    rcases List.mem_append.mp hl with hm | hm
    · by_cases hskip : (tag = "" || tag = "-") = true
      · rw [if_pos hskip] at hm; cases hm
      · rw [if_neg hskip, List.mem_singleton] at hm
        subst hm
        simp [typeAt]
    · rcases List.mem_map.mp hm with ⟨l', hl', rfl⟩
      have hne := leaves_path_ne_nil rest l' hl'
      have hih := ih l' hl'
      obtain ⟨path, ltag, lty⟩ := l'
      cases path with
      | nil => exact absurd rfl hne
      | cons j p =>
        show typeAt (Field.leaf tag ty :: rest) ((j + 1) :: p) = some lty
        rw [typeAt_cons_succ]
        exact hih
  | case3 sub rest ih2 ih1 =>
    intro l hl
    rw [leavesOfFields] at hl
    rcases List.mem_append.mp hl with hm | hm
    · rcases List.mem_map.mp hm with ⟨l', hl', rfl⟩
      have hne := leaves_path_ne_nil sub l' hl'
      have hih := ih2 l' hl'
      show typeAt (Field.embed sub :: rest) (0 :: l'.path) = some l'.ty
      rw [typeAt]
      simp only [List.getElem?_cons_zero]
      obtain ⟨path, ltag, lty⟩ := l'
      cases path with
      | nil => exact absurd rfl hne
      | cons q p' => exact hih
    · rcases List.mem_map.mp hm with ⟨l', hl', rfl⟩
      have hne := leaves_path_ne_nil rest l' hl'
      have hih := ih1 l' hl'
      obtain ⟨path, ltag, lty⟩ := l'
      cases path with
      | nil => exact absurd rfl hne
      | cons j p =>
        show typeAt (Field.embed sub :: rest) ((j + 1) :: p) = some lty
        rw [typeAt_cons_succ]
        exact hih

theorem plainType_leaves (fs : List Field) (hp : plainFields fs = true) :
    ∀ l ∈ leavesOfFields fs, plainType l.ty = true := by
  induction fs using leavesOfFields.induct with
  | case1 => intro l hl; rw [leavesOfFields] at hl; cases hl
  | case2 tag ty rest ih =>
    rw [plainFields, Bool.and_eq_true] at hp
    intro l hl
    rw [leavesOfFields] at hl
    rcases List.mem_append.mp hl with hm | hm
    · by_cases hskip : (tag = "" || tag = "-") = true
      · rw [if_pos hskip] at hm; cases hm
      · rw [if_neg hskip, List.mem_singleton] at hm
        subst hm
        exact hp.1
    · rcases List.mem_map.mp hm with ⟨l', hl', rfl⟩
      exact ih hp.2 l' hl'
  | case3 sub rest ih2 ih1 =>
    rw [plainFields, Bool.and_eq_true] at hp
    intro l hl
    rw [leavesOfFields] at hl
    rcases List.mem_append.mp hl with hm | hm
    · rcases List.mem_map.mp hm with ⟨l', hl', rfl⟩
      exact ih2 hp.1 l' hl'
    · rcases List.mem_map.mp hm with ⟨l', hl', rfl⟩
      exact ih1 hp.2 l' hl'

theorem leaves_pairwise (fs : List Field) :
    (leavesOfFields fs).Pairwise (fun a b => incompB a.path b.path = true) := by
  induction fs using leavesOfFields.induct with
  | case1 => rw [leavesOfFields]; exact List.Pairwise.nil
  | case2 tag ty rest ih =>
    rw [leavesOfFields, List.pairwise_append]
    refine ⟨?_, ?_, ?_⟩
    · by_cases hskip : (tag = "" || tag = "-") = true
      · rw [if_pos hskip]; exact List.Pairwise.nil
      · rw [if_neg hskip]; exact List.pairwise_singleton _ _
    · rw [List.pairwise_map]
      refine List.Pairwise.imp_of_mem ?_ ih
      intro a b ha hb hab
      have hna := leaves_path_ne_nil rest a ha
      have hnb := leaves_path_ne_nil rest b hb
      obtain ⟨pa, ta, tya⟩ := a
      obtain ⟨pb, tb, tyb⟩ := b
      cases pa with
      | nil => exact absurd rfl hna
      | cons j p =>
        cases pb with
        | nil => exact absurd rfl hnb
        | cons k q =>
          show incompB ((j + 1) :: p) ((k + 1) :: q) = true
          rw [incompB] at hab ⊢
          by_cases hjk : j = k
          · rw [if_pos hjk] at hab
            rw [if_pos (by omega)]
            exact hab
          · rw [if_neg (by omega)]
    · intro a ha b hb
      by_cases hskip : (tag = "" || tag = "-") = true
      · rw [if_pos hskip] at ha; cases ha
      · rw [if_neg hskip, List.mem_singleton] at ha
        subst ha
        rcases List.mem_map.mp hb with ⟨b', hb', rfl⟩
        have hnb := leaves_path_ne_nil rest b' hb'
        obtain ⟨pb, tb, tyb⟩ := b'
        cases pb with
        | nil => exact absurd rfl hnb
        | cons k q =>
          show incompB [0] ((k + 1) :: q) = true
          rw [incompB, if_neg (by omega)]
  | case3 sub rest ih2 ih1 =>
    rw [leavesOfFields, List.pairwise_append]
    refine ⟨?_, ?_, ?_⟩
    · rw [List.pairwise_map]
      refine List.Pairwise.imp_of_mem ?_ ih2
      intro a b _ _ hab
      show incompB (0 :: a.path) (0 :: b.path) = true
      rw [incompB, if_pos rfl]
      exact hab
    · rw [List.pairwise_map]
      refine List.Pairwise.imp_of_mem ?_ ih1
      intro a b ha hb hab
      have hna := leaves_path_ne_nil rest a ha
      have hnb := leaves_path_ne_nil rest b hb
      obtain ⟨pa, ta, tya⟩ := a
      obtain ⟨pb, tb, tyb⟩ := b
      cases pa with
      | nil => exact absurd rfl hna
      | cons j p =>
        cases pb with
        | nil => exact absurd rfl hnb
        | cons k q =>
          show incompB ((j + 1) :: p) ((k + 1) :: q) = true
          rw [incompB] at hab ⊢
          by_cases hjk : j = k
          · rw [if_pos hjk] at hab
            rw [if_pos (by omega)]
            exact hab
          · rw [if_neg (by omega)]
    · intro a ha b hb
      rcases List.mem_map.mp ha with ⟨a', _, rfl⟩
      rcases List.mem_map.mp hb with ⟨b', hb', rfl⟩
      have hnb := leaves_path_ne_nil rest b' hb'
      obtain ⟨pb, tb, tyb⟩ := b'
      cases pb with
      | nil => exact absurd rfl hnb
      | cons k q =>
        show incompB (0 :: a'.path) ((k + 1) :: q) = true
        rw [incompB, if_neg (by omega)]

theorem navigate_cons_zero (v0 : Val) (vrest : List Val) (p : List Nat) :
    navigate (.strct (v0 :: vrest)) (0 :: p) = navigate v0 p := by
  rw [navigate]
  simp only [List.getElem?_cons_zero]

theorem navigate_cons_succ (v0 : Val) (vrest : List Val) (j : Nat) (p : List Nat) :
    navigate (.strct (v0 :: vrest)) ((j + 1) :: p) = navigate (.strct vrest) (j :: p) := by
  rw [navigate, navigate]
  simp only [List.getElem?_cons_succ]

theorem navigate_zeroFields (fs : List Field) :
    ∀ l ∈ leavesOfFields fs,
      navigate (.strct (zeroFields fs)) l.path = some (.leaf (zeroGo l.ty)) := by
  induction fs using leavesOfFields.induct with
  | case1 => intro l hl; rw [leavesOfFields] at hl; cases hl
  | case2 tag ty rest ih =>
    intro l hl
    rw [leavesOfFields] at hl
    rw [zeroFields]
    rcases List.mem_append.mp hl with hm | hm
    · by_cases hskip : (tag = "" || tag = "-") = true
      · rw [if_pos hskip] at hm; cases hm
      · rw [if_neg hskip, List.mem_singleton] at hm
        subst hm
        show navigate (.strct (Val.leaf (zeroGo ty) :: zeroFields rest)) (0 :: []) =
          some (.leaf (zeroGo ty))
        rw [navigate_cons_zero]
        rfl
    · rcases List.mem_map.mp hm with ⟨l', hl', rfl⟩
      have hne := leaves_path_ne_nil rest l' hl'
      have hih := ih l' hl'
      obtain ⟨path, ltag, lty⟩ := l'
      cases path with
      | nil => exact absurd rfl hne
      | cons j p =>
        show navigate (.strct (Val.leaf (zeroGo ty) :: zeroFields rest)) ((j + 1) :: p) =
          some (.leaf (zeroGo lty))
        rw [navigate_cons_succ]
        exact hih
  | case3 sub rest ih2 ih1 =>
    intro l hl
    rw [leavesOfFields] at hl
    rw [zeroFields]
    rcases List.mem_append.mp hl with hm | hm
    · rcases List.mem_map.mp hm with ⟨l', hl', rfl⟩
      have hih := ih2 l' hl'
      show navigate (.strct (Val.strct (zeroFields sub) :: zeroFields rest)) (0 :: l'.path) =
        some (.leaf (zeroGo l'.ty))
      rw [navigate_cons_zero]
      exact hih
    · rcases List.mem_map.mp hm with ⟨l', hl', rfl⟩
      have hne := leaves_path_ne_nil rest l' hl'
      have hih := ih1 l' hl'
      obtain ⟨path, ltag, lty⟩ := l'
      cases path with
      | nil => exact absurd rfl hne
      | cons j p =>
        show navigate (.strct (Val.strct (zeroFields sub) :: zeroFields rest)) ((j + 1) :: p) =
          some (.leaf (zeroGo lty))
        rw [navigate_cons_succ]
        exact hih

theorem navigate_props (opts : Options) (fs : List Field) :
    ∀ vs : List Val, wfFields fs vs = true → cellsOK opts fs vs = true →
    ∀ l ∈ leavesOfFields fs, ∃ gv, navigate (.strct vs) l.path = some (.leaf gv) ∧
      wfGo l.ty gv = true ∧ noNil gv = true ∧ formatField gv opts ≠ opts.nilValue ∧
      (isPtrT l.ty = true → formatField gv opts ≠ "") := by
  induction fs using leavesOfFields.induct with
  | case1 => intro vs _ _ l hl; rw [leavesOfFields] at hl; cases hl
  | case2 tag ty rest ih =>
    intro vs hwf hc l hl
    cases vs with
    | nil => simp [wfFields] at hwf
    | cons v0 vrest =>
      cases v0 with
      | strct a => simp [wfFields] at hwf
      | leaf v =>
        simp only [wfFields, Bool.and_eq_true] at hwf
        simp only [cellsOK, Bool.and_eq_true, Bool.or_eq_true, decide_eq_true_eq,
          Bool.not_eq_true'] at hc
        rw [leavesOfFields] at hl
        rcases List.mem_append.mp hl with hm | hm
        · by_cases hskip : (tag = "" || tag = "-") = true
          · rw [if_pos hskip] at hm; cases hm
          · rw [if_neg hskip, List.mem_singleton] at hm
            subst hm
            refine ⟨v, ?_, hwf.1, hc.1.1.1, hc.1.1.2, ?_⟩
            · show navigate (.strct (Val.leaf v :: vrest)) (0 :: []) = some (.leaf v)
              rw [navigate_cons_zero]
              rfl
            · intro hpt
              rcases hc.1.2 with hb | hne
              · rw [hpt] at hb; cases hb
              · exact hne
        · rcases List.mem_map.mp hm with ⟨l', hl', rfl⟩
          have hne := leaves_path_ne_nil rest l' hl'
          have hih := ih vrest hwf.2 hc.2 l' hl'
          obtain ⟨path, ltag, lty⟩ := l'
          cases path with
          | nil => exact absurd rfl hne
          | cons j p =>
            obtain ⟨gv, hnav, hrest⟩ := hih
            refine ⟨gv, ?_, hrest⟩
            show navigate (.strct (Val.leaf v :: vrest)) ((j + 1) :: p) = some (.leaf gv)
            rw [navigate_cons_succ]
            exact hnav
  | case3 sub rest ih2 ih1 =>
    intro vs hwf hc l hl
    cases vs with
    | nil => simp [wfFields] at hwf
    | cons v0 vrest =>
      cases v0 with
      | leaf v => simp [wfFields] at hwf
      | strct a =>
        simp only [wfFields, Bool.and_eq_true] at hwf
        simp only [cellsOK, Bool.and_eq_true] at hc
        rw [leavesOfFields] at hl
        rcases List.mem_append.mp hl with hm | hm
        · rcases List.mem_map.mp hm with ⟨l', hl', rfl⟩
          obtain ⟨gv, hnav, hrest⟩ := ih2 a hwf.1 hc.1 l' hl'
          refine ⟨gv, ?_, hrest⟩
          show navigate (.strct (Val.strct a :: vrest)) (0 :: l'.path) = some (.leaf gv)
          rw [navigate_cons_zero]
          exact hnav
        · rcases List.mem_map.mp hm with ⟨l', hl', rfl⟩
          have hne := leaves_path_ne_nil rest l' hl'
          have hih := ih1 vrest hwf.2 hc.2 l' hl'
          obtain ⟨path, ltag, lty⟩ := l'
          cases path with
          | nil => exact absurd rfl hne
          | cons j p =>
            obtain ⟨gv, hnav, hrest⟩ := hih
            refine ⟨gv, ?_, hrest⟩
            show navigate (.strct (Val.strct a :: vrest)) ((j + 1) :: p) = some (.leaf gv)
            rw [navigate_cons_succ]
            exact hnav

theorem wfGo_zeroGo (ty : FieldType) (hp : plainType ty = true) :
    wfGo ty (zeroGo ty) = true := by
  induction ty with
  | base t =>
    cases t with
    | str => rfl
    | int w =>
      simp only [plainType] at hp
      have h1 : -(2 ^ (w - 1) : Int) ≤ 0 := neg_nonpos.mpr (by positivity)
      have h2 : (0 : Int) < 2 ^ (w - 1) := by positivity
      simp [zeroGo, zeroBase, wfGo, wfBase, hp, h1, h2]
    | uint w =>
      simp only [plainType] at hp
      have h2 : (0 : Nat) < 2 ^ w := by positivity
      simp [zeroGo, zeroBase, wfGo, wfBase, hp, h2]
    | bool => rfl
    | other k => simp [plainType] at hp
  | hooked dec t => simp [plainType] at hp
  | ptr e ih => rfl

theorem wfFields_zeroFields (fs : List Field) (hp : plainFields fs = true) :
    wfFields fs (zeroFields fs) = true := by
  induction fs using zeroFields.induct with
  | case1 => simp [zeroFields, wfFields]
  | case2 tag ty rest ih =>
    simp only [plainFields, Bool.and_eq_true] at hp
    rw [zeroFields]
    simp only [wfFields, Bool.and_eq_true]
    exact ⟨wfGo_zeroGo ty hp.1, ih hp.2⟩
  | case3 sub rest ih2 ih1 =>
    simp only [plainFields, Bool.and_eq_true] at hp
    rw [zeroFields]
    simp only [wfFields, Bool.and_eq_true]
    exact ⟨ih2 hp.1, ih1 hp.2⟩

theorem setAtVal_wf_aux :
    ∀ (n : Nat) (P : List Nat) (fs : List Field) (ws : List Val) (ty : FieldType)
      (nv : GoVal),
      P.length ≤ n → wfFields fs ws = true → typeAt fs P = some ty → wfGo ty nv = true →
      ∃ ws', setAtVal (.strct ws) P nv = .strct ws' ∧ wfFields fs ws' = true := by
  intro n
  induction n with
  | zero =>
    intro P fs ws ty nv hlen _ hty _
    have hP : P = [] := List.eq_nil_of_length_eq_zero (by omega)
    subst hP
    rw [typeAt] at hty
    cases hty
  | succ n ihn =>
    intro P
    cases P with
    | nil =>
      intro fs ws ty nv _ _ hty _
      rw [typeAt] at hty
      cases hty
    | cons i p =>
      intro fs
      induction fs generalizing i with
      | nil =>
        intro ws ty nv _ _ hty _
        simp [typeAt] at hty
      | cons f rest ihf =>
        intro ws ty nv hlen hwf hty hnv
        cases ws with
        | nil => cases f <;> simp [wfFields] at hwf
        | cons w0 ws' =>
          cases i with
          | zero =>
            cases f with
            | leaf tag lty =>
              cases w0 with
              | strct a => simp [wfFields] at hwf
              | leaf v =>
                simp only [wfFields, Bool.and_eq_true] at hwf
                rw [typeAt] at hty
                simp only [List.getElem?_cons_zero] at hty
                cases p with
                | nil =>
                  obtain rfl : lty = ty := by simpa using hty
                  refine ⟨Val.leaf nv :: ws', rfl, ?_⟩
                  simp only [wfFields, Bool.and_eq_true]
                  exact ⟨hnv, hwf.2⟩
                | cons q p' => simp at hty
            | embed sub =>
              cases w0 with
              | leaf v => simp [wfFields] at hwf
              | strct a =>
                simp only [wfFields, Bool.and_eq_true] at hwf
                rw [typeAt] at hty
                simp only [List.getElem?_cons_zero] at hty
                cases p with
                | nil => simp at hty
                | cons q p' =>
                  have hlen' : (q :: p').length ≤ n := by
                    simp only [List.length_cons] at hlen ⊢
                    omega
                  obtain ⟨a', ha, hwa⟩ :=
                    ihn (q :: p') sub a ty nv hlen' hwf.1 (by simpa using hty) hnv
                  refine ⟨Val.strct a' :: ws', ?_, ?_⟩
                  · show Val.strct (modifyAt (fun x => setAtVal x (q :: p') nv) 0
                        (Val.strct a :: ws')) = Val.strct (Val.strct a' :: ws')
                    rw [modifyAt, ha]
                  · simp only [wfFields, Bool.and_eq_true]
                    exact ⟨hwa, hwf.2⟩
          | succ i =>
            have hty' : typeAt rest (i :: p) = some ty := by
              rw [← typeAt_cons_succ f rest i p]
              exact hty
            have hlen' : (i :: p).length ≤ n + 1 := by
              simp only [List.length_cons] at hlen ⊢
              omega
            cases f with
            | leaf tag lty =>
              cases w0 with
              | strct a => simp [wfFields] at hwf
              | leaf v =>
                simp only [wfFields, Bool.and_eq_true] at hwf
                obtain ⟨ws'', hws, hww⟩ := ihf i ws' ty nv hlen' hwf.2 hty' hnv
                have hmod : modifyAt (fun x => setAtVal x p nv) i ws' = ws'' := by
                  have h0 : setAtVal (Val.strct ws') (i :: p) nv =
                      Val.strct (modifyAt (fun x => setAtVal x p nv) i ws') := rfl
                  rw [h0] at hws
                  exact Val.strct.inj hws
                refine ⟨Val.leaf v :: ws'', ?_, ?_⟩
                · show Val.strct (modifyAt (fun x => setAtVal x p nv) (i + 1)
                      (Val.leaf v :: ws')) = Val.strct (Val.leaf v :: ws'')
                  rw [modifyAt, hmod]
                · simp only [wfFields, Bool.and_eq_true]
                  exact ⟨hwf.1, hww⟩
            | embed sub =>
              cases w0 with
              | leaf v => simp [wfFields] at hwf
              | strct a =>
                simp only [wfFields, Bool.and_eq_true] at hwf
                obtain ⟨ws'', hws, hww⟩ := ihf i ws' ty nv hlen' hwf.2 hty' hnv
                have hmod : modifyAt (fun x => setAtVal x p nv) i ws' = ws'' := by
                  have h0 : setAtVal (Val.strct ws') (i :: p) nv =
                      Val.strct (modifyAt (fun x => setAtVal x p nv) i ws') := rfl
                  rw [h0] at hws
                  exact Val.strct.inj hws
                refine ⟨Val.strct a :: ws'', ?_, ?_⟩
                · show Val.strct (modifyAt (fun x => setAtVal x p nv) (i + 1)
                      (Val.strct a :: ws')) = Val.strct (Val.strct a :: ws'')
                  rw [modifyAt, hmod]
                · simp only [wfFields, Bool.and_eq_true]
                  exact ⟨hwf.1, hww⟩

/-- setAtVal_wf: writing a well-formed value of the right type at a valid
path of a well-formed struct value keeps the struct well-formed. -/
theorem setAtVal_wf (P : List Nat) (fs : List Field) (ws : List Val)
    (ty : FieldType) (nv : GoVal) (hwf : wfFields fs ws = true)
    (hty : typeAt fs P = some ty) (hnv : wfGo ty nv = true) :
    ∃ ws', setAtVal (.strct ws) P nv = .strct ws' ∧ wfFields fs ws' = true :=
  setAtVal_wf_aux P.length P fs ws ty nv (Nat.le_refl _) hwf hty hnv

/-- fillCells_spec: processing one column per leaf entry (pairwise
independent paths, each resolving in the map to its own path, each cell
decoding to its target value regardless of prior field content) succeeds and
produces exactly the fold of the per-leaf writes; written leaves read back
their values, untouched positions are unchanged. -/
theorem fillCells_spec (shape : List Field) (fm : List (String × FieldInfo))
    (mem : Mem) (opts : Options) (c : LeafEntry → String) (cv : LeafEntry → GoVal) :
    ∀ (L : List LeafEntry) (acc : Val),
      L.Pairwise (fun a b => incompB a.path b.path = true) →
      (∀ l ∈ L, ∃ info, lookupAssoc fm l.tag = some info ∧
        readSlice mem info.index = l.path) →
      (∀ l ∈ L, typeAt shape l.path = some l.ty) →
      (∀ l ∈ L, ∃ old, navigate acc l.path = some (.leaf old)) →
      (∀ l ∈ L, ∀ old : GoVal, setField l.ty old (c l) opts = .ok (cv l)) →
      fillCells shape fm mem opts (L.map fun x => (x.tag, c x)) acc =
        .ok (L.foldl (fun a x => setAtVal a x.path (cv x)) acc) ∧
      (∀ l ∈ L, navigate (L.foldl (fun a x => setAtVal a x.path (cv x)) acc) l.path =
        some (.leaf (cv l))) ∧
      (∀ q : List Nat, (∀ l ∈ L, incompB q l.path = true) →
        navigate (L.foldl (fun a x => setAtVal a x.path (cv x)) acc) q = navigate acc q) := by
  intro L
  induction L with
  | nil =>
    intro acc _ _ _ _ _
    refine ⟨rfl, ?_, fun q _ => rfl⟩
    intro l hl
    cases hl
  | cons l L' ih =>
    intro acc hpw hlk hty hnav hset
    obtain ⟨info0, hlk0, hrd0⟩ := hlk l (List.mem_cons_self _ _)
    have hty0 : typeAt shape l.path = some l.ty := hty l (List.mem_cons_self _ _)
    obtain ⟨old0, hnav0⟩ := hnav l (List.mem_cons_self _ _)
    have hset0 := hset l (List.mem_cons_self _ _) old0
    rw [List.pairwise_cons] at hpw
    have hstep : fillCells shape fm mem opts ((l :: L').map fun x => (x.tag, c x)) acc =
        fillCells shape fm mem opts (L'.map fun x => (x.tag, c x))
          (setAtVal acc l.path (cv l)) := by
      simp only [List.map_cons, fillCells, hlk0, hrd0, hty0, hnav0, hset0]
    have hnav' : ∀ x ∈ L', ∃ old, navigate (setAtVal acc l.path (cv l)) x.path =
        some (.leaf old) := by
      intro x hx
      obtain ⟨o, ho⟩ := hnav x (List.mem_cons_of_mem _ hx)
      refine ⟨o, ?_⟩
      rw [navigate_setAtVal_other _ _ _ _ (incompB_symm _ _ (hpw.1 x hx))]
      exact ho
    obtain ⟨hfe, hR1, hR2⟩ := ih (setAtVal acc l.path (cv l)) hpw.2
      (fun x hx => hlk x (List.mem_cons_of_mem _ hx))
      (fun x hx => hty x (List.mem_cons_of_mem _ hx)) hnav'
      (fun x hx => hset x (List.mem_cons_of_mem _ hx))
    refine ⟨?_, ?_, ?_⟩
    · rw [hstep, List.foldl_cons]
      exact hfe
    · intro x hx
      rcases List.mem_cons.mp hx with rfl | hx'
      · rw [List.foldl_cons, hR2 x.path (fun y hy => hpw.1 y hy),
          navigate_setAtVal_same _ _ old0 _ hnav0]
      · rw [List.foldl_cons]
        exact hR1 x hx'
    · intro q hq
      rw [List.foldl_cons, hR2 q (fun y hy => hq y (List.mem_cons_of_mem _ hy)),
        navigate_setAtVal_other _ _ _ _ (hq l (List.mem_cons_self _ _))]

theorem foldl_setAtVal_wf (shape : List Field) (cv : LeafEntry → GoVal) :
    ∀ (L : List LeafEntry) (ws : List Val),
      wfFields shape ws = true →
      (∀ l ∈ L, typeAt shape l.path = some l.ty) →
      (∀ l ∈ L, wfGo l.ty (cv l) = true) →
      ∃ rs, L.foldl (fun a x => setAtVal a x.path (cv x)) (.strct ws) = .strct rs ∧
        wfFields shape rs = true := by
  intro L
  induction L with
  | nil => intro ws hwf _ _; exact ⟨ws, rfl, hwf⟩
  | cons l L' ih =>
    intro ws hwf hty hcv
    obtain ⟨ws', hset, hwf'⟩ := setAtVal_wf l.path shape ws l.ty (cv l) hwf
      (hty l (List.mem_cons_self _ _)) (hcv l (List.mem_cons_self _ _))
    rw [List.foldl_cons, hset]
    exact ih ws' hwf' (fun x hx => hty x (List.mem_cons_of_mem _ hx))
      (fun x hx => hcv x (List.mem_cons_of_mem _ hx))

/-- val_ext: two well-formed values of an all-tagged shape that agree on
every tagged-leaf path are equal. -/
theorem val_ext (fs : List Field) :
    ∀ (ws vs : List Val), wfFields fs ws = true → wfFields fs vs = true →
      allTagged fs = true →
      (∀ l ∈ leavesOfFields fs,
        navigate (.strct ws) l.path = navigate (.strct vs) l.path) →
      ws = vs := by
  induction fs using leavesOfFields.induct with
  | case1 =>
    intro ws vs hw hv _ _
    cases ws with
    | cons w ws' => simp [wfFields] at hw
    | nil =>
      cases vs with
      | cons v vs' => simp [wfFields] at hv
      | nil => rfl
  | case2 tag ty rest ih =>
    intro ws vs hw hv ht hnav
    simp only [allTagged, Bool.and_eq_true] at ht
    cases ws with
    | nil => simp [wfFields] at hw
    | cons w0 ws' =>
      cases vs with
      | nil => simp [wfFields] at hv
      | cons v0 vs' =>
        cases w0 with
        | strct a => simp [wfFields] at hw
        | leaf w =>
          cases v0 with
          | strct a => simp [wfFields] at hv
          | leaf v =>
            simp only [wfFields, Bool.and_eq_true] at hw hv
            have hskip : ¬(tag = "" || tag = "-") = true := by
              intro hk
              rw [hk] at ht
              simp at ht
            have hleq : leavesOfFields (Field.leaf tag ty :: rest) =
                ⟨[0], tag, ty⟩ :: (leavesOfFields rest).map shiftEntry := by
              rw [leavesOfFields, if_neg hskip, List.singleton_append]
            have hhead := hnav ⟨[0], tag, ty⟩ (by rw [hleq]; exact List.mem_cons_self _ _)
            have hwv : w = v := by
              have h1 : navigate (.strct (Val.leaf w :: ws')) ((0 : Nat) :: ([] : List Nat)) =
                  some (.leaf w) := by
                rw [navigate_cons_zero]; rfl
              have h2 : navigate (.strct (Val.leaf v :: vs')) ((0 : Nat) :: ([] : List Nat)) =
                  some (.leaf v) := by
                rw [navigate_cons_zero]; rfl
              have := h1.symm.trans (hhead.trans h2)
              exact Val.leaf.inj (Option.some.inj this)
            have hrest : ws' = vs' := by
              apply ih ws' vs' hw.2 hv.2 ht.2
              intro l hl
              have hne := leaves_path_ne_nil rest l hl
              have hx := hnav (shiftEntry l)
                (by rw [hleq]; exact List.mem_cons_of_mem _ (List.mem_map_of_mem shiftEntry hl))
              obtain ⟨path, ltag, lty⟩ := l
              cases path with
              | nil => exact absurd rfl hne
              | cons j p =>
                have e1 := navigate_cons_succ (Val.leaf w) ws' j p
                have e2 := navigate_cons_succ (Val.leaf v) vs' j p
                show navigate (.strct ws') (j :: p) = navigate (.strct vs') (j :: p)
                rw [← e1, ← e2]
                exact hx
            rw [hwv, hrest]
  | case3 sub rest ih2 ih1 =>
    intro ws vs hw hv ht hnav
    simp only [allTagged, Bool.and_eq_true] at ht
    cases ws with
    | nil => simp [wfFields] at hw
    | cons w0 ws' =>
      cases vs with
      | nil => simp [wfFields] at hv
      | cons v0 vs' =>
        cases w0 with
        | leaf w => simp [wfFields] at hw
        | strct aw =>
          cases v0 with
          | leaf v => simp [wfFields] at hv
          | strct av =>
            simp only [wfFields, Bool.and_eq_true] at hw hv
            have hleq : leavesOfFields (Field.embed sub :: rest) =
                (leavesOfFields sub).map consEntry ++
                  (leavesOfFields rest).map shiftEntry := by
              rw [leavesOfFields]
            have hsub : aw = av := by
              apply ih2 aw av hw.1 hv.1 ht.1
              intro l hl
              have hx := hnav (consEntry l)
                (by rw [hleq]
                    exact List.mem_append_left _ (List.mem_map_of_mem consEntry hl))
              have e1 := navigate_cons_zero (Val.strct aw) ws' l.path
              have e2 := navigate_cons_zero (Val.strct av) vs' l.path
              show navigate (.strct aw) l.path = navigate (.strct av) l.path
              rw [← e1, ← e2]
              exact hx
            have hrest : ws' = vs' := by
              apply ih1 ws' vs' hw.2 hv.2 ht.2
              intro l hl
              have hne := leaves_path_ne_nil rest l hl
              have hx := hnav (shiftEntry l)
                (by rw [hleq]
                    exact List.mem_append_right _ (List.mem_map_of_mem shiftEntry hl))
              obtain ⟨path, ltag, lty⟩ := l
              cases path with
              | nil => exact absurd rfl hne
              | cons j p =>
                have e1 := navigate_cons_succ (Val.strct aw) ws' j p
                have e2 := navigate_cons_succ (Val.strct av) vs' j p
                show navigate (.strct ws') (j :: p) = navigate (.strct vs') (j :: p)
                rw [← e1, ← e2]
                exact hx
            rw [hsub, hrest]

/-- roundtrip_single: the heart of the round-trip property.  For a shape
whose leaves are all tagged with pairwise-distinct names and plain built-in
types, and a well-formed record whose cells are unambiguous (cellsOK),
unmarshaling the header and single row produced by marshaling the
one-element slice returns exactly that record, with no error. -/
theorem roundtrip_single (shape : List Field) (vs : List Val) (opts : Options)
    (hplain : plainFields shape = true)
    (htag : allTagged shape = true)
    (hnd : ((leavesOfFields shape).map LeafEntry.tag).Nodup)
    (hdepth : noAliasWalk 0 shape = true)
    (hwf : wfFields shape vs = true)
    (hc : cellsOK opts shape vs = true) :
    UnmarshalWithOptions shape (MarshalWithOptions shape [.strct vs] opts).1
      (MarshalWithOptions shape [.strct vs] opts).2 opts = ([.strct vs], none) := by
  have hprops : ∀ l ∈ leavesOfFields shape,
      navigate (.strct vs) l.path = some (.leaf (leafValAt (.strct vs) l.path)) ∧
      wfGo l.ty (leafValAt (.strct vs) l.path) = true ∧
      noNil (leafValAt (.strct vs) l.path) = true ∧
      formatField (leafValAt (.strct vs) l.path) opts ≠ opts.nilValue ∧
      (isPtrT l.ty = true → formatField (leafValAt (.strct vs) l.path) opts ≠ "") := by
    intro l hl
    obtain ⟨gv, hnav, h1, h2, h3, h4⟩ := navigate_props opts shape vs hwf hc l hl
    have hcv : leafValAt (.strct vs) l.path = gv := by
      rw [leafValAt, hnav]
    rw [hcv]
    exact ⟨hnav, h1, h2, h3, h4⟩
  obtain ⟨bs, mfin, hgm, hbind⟩ := getFieldMap_spec shape hnd hdepth
  have hgmf : (getFieldMap shape).fields = bs := by
    rw [hgm]
  have hgmt : (getFieldMap shape).orderedTags =
      (leavesOfFields shape).map LeafEntry.tag := by
    rw [hgm]
  have hgmm : (getFieldMap shape).mem = mfin := by
    rw [hgm]
  have hlook : ∀ l ∈ leavesOfFields shape, ∃ info, lookupAssoc bs l.tag = some info ∧
      readSlice mfin info.index = l.path :=
    lookupAssoc_bindsLeaves mfin bs (leavesOfFields shape) 0 hnd hbind
  have hrow : marshalRow (getFieldMap shape) (.strct vs) opts =
      (leavesOfFields shape).map
        (fun l => formatField (leafValAt (.strct vs) l.path) opts) := by
    rw [marshalRow, hgmt, hgmf, hgmm, List.map_map]
    apply List.map_congr_left
    intro l hl
    obtain ⟨info, hinfo, hrd⟩ := hlook l hl
    show (match lookupAssoc bs l.tag with
      | none => ""
      | some info =>
        match navigate (.strct vs) (readSlice mfin info.index) with
        | some (.leaf gv) => formatField gv opts
        | _ => "") = formatField (leafValAt (.strct vs) l.path) opts
    rw [hinfo]
    simp only [hrd, (hprops l hl).1]
  have hmar : MarshalWithOptions shape [.strct vs] opts =
      ((leavesOfFields shape).map LeafEntry.tag,
        [(leavesOfFields shape).map
          (fun l => formatField (leafValAt (.strct vs) l.path) opts)]) := by
    have h0 : MarshalWithOptions shape [.strct vs] opts =
        ((getFieldMap shape).orderedTags,
          [marshalRow (getFieldMap shape) (.strct vs) opts]) := rfl
    rw [h0, hgmt, hrow]
  have hdec : decodeRow shape bs mfin
      ((leavesOfFields shape).map LeafEntry.tag) opts
      ((leavesOfFields shape).map
        (fun l => formatField (leafValAt (.strct vs) l.path) opts)) =
      .ok (.strct vs) := by
    rw [decodeRow, if_neg (by simp), List.zip_map']
    obtain ⟨hfe, hR1, hR2⟩ := fillCells_spec shape bs mfin opts
      (fun l => formatField (leafValAt (.strct vs) l.path) opts)
      (fun l => leafValAt (.strct vs) l.path)
      (leavesOfFields shape) (.strct (zeroFields shape)) (leaves_pairwise shape)
      hlook
      (fun l hl => typeAt_leaves shape l hl)
      (fun l hl => ⟨zeroGo l.ty, navigate_zeroFields shape l hl⟩)
      (fun l hl old => by
        obtain ⟨hnav, h1, h2, h3, h4⟩ := hprops l hl
        exact setField_formatField l.ty (leafValAt (.strct vs) l.path) old opts
          (plainType_leaves shape hplain l hl) h1 h2 h3 h4)
    rw [hfe]
    obtain ⟨rs, hrs, hwrs⟩ := foldl_setAtVal_wf shape
      (fun l => leafValAt (.strct vs) l.path) (leavesOfFields shape) (zeroFields shape)
      (wfFields_zeroFields shape hplain) (fun l hl => typeAt_leaves shape l hl)
      (fun l hl => (hprops l hl).2.1)
    rw [hrs]
    have hrsvs : rs = vs := by
      apply val_ext shape rs vs hwrs hwf htag
      intro l hl
      have h1 := hR1 l hl
      rw [hrs] at h1
      rw [h1, (hprops l hl).1]
    rw [hrsvs]
  rw [hmar]
  show unmarshalRowsAux shape (getFieldMap shape).fields (getFieldMap shape).mem
      ((leavesOfFields shape).map LeafEntry.tag) opts
      [(leavesOfFields shape).map
        (fun l => formatField (leafValAt (.strct vs) l.path) opts)]
      [] = ([.strct vs], none)
  rw [hgmf, hgmm]
  simp only [unmarshalRowsAux, hdec, List.nil_append]

theorem unmarshalRowsAux_append_ok (shape : List Field) (fm : List (String × FieldInfo))
    (mem : Mem) (header : List String) (opts : Options) :
    ∀ (g : List (List String)) (gs : List Val) (rows' : List (List String))
      (acc : List Val),
      g.mapM (decodeRow shape fm mem header opts) = .ok gs →
      unmarshalRowsAux shape fm mem header opts (g ++ rows') acc =
        unmarshalRowsAux shape fm mem header opts rows' (acc ++ gs) := by
  intro g
  induction g with
  | nil =>
    intro gs rows' acc h
    have hgs : gs = [] := by
      rw [List.mapM_nil] at h
      exact (Except.ok.inj h).symm
    subst hgs
    rw [List.nil_append, List.append_nil]
  | cons r g ih =>
    intro gs rows' acc h
    rw [List.mapM_cons] at h
    cases hr : decodeRow shape fm mem header opts r with
    | error e =>
      rw [hr] at h
      simp only [bind, Except.bind] at h
      cases h
    | ok v =>
      rw [hr] at h
      simp only [bind, Except.bind] at h
      cases hg : g.mapM (decodeRow shape fm mem header opts) with
      | error e =>
        rw [hg] at h
        simp only [bind, Except.bind] at h
        cases h
      | ok vs' =>
        rw [hg] at h
        simp only [bind, Except.bind, pure, Except.pure] at h
        have hgs : gs = v :: vs' := (Except.ok.inj h).symm
        subst hgs
        rw [List.cons_append]
        simp only [unmarshalRowsAux, hr]
        rw [ih vs' rows' (acc ++ [v]) hg, List.append_assoc, List.singleton_append]

theorem mapM_ok_length (shape : List Field) (fm : List (String × FieldInfo))
    (mem : Mem) (header : List String) (opts : Options) :
    ∀ (g : List (List String)) (gs : List Val),
      g.mapM (decodeRow shape fm mem header opts) = .ok gs → gs.length = g.length := by
  intro g
  induction g with
  | nil =>
    intro gs h
    rw [List.mapM_nil] at h
    rw [← Except.ok.inj h]
    rfl
  | cons r g ih =>
    intro gs h
    rw [List.mapM_cons] at h
    cases hr : decodeRow shape fm mem header opts r with
    | error e =>
      rw [hr] at h
      simp only [bind, Except.bind] at h
      cases h
    | ok v =>
      rw [hr] at h
      simp only [bind, Except.bind] at h
      cases hg : g.mapM (decodeRow shape fm mem header opts) with
      | error e =>
        rw [hg] at h
        simp only [bind, Except.bind] at h
        cases h
      | ok vs' =>
        rw [hg] at h
        simp only [bind, Except.bind, pure, Except.pure] at h
        rw [← Except.ok.inj h]
        simp only [List.length_cons, ih vs' hg]

/-- C7: for every struct shape, the FieldMap produced by resolution has no
duplicate names in orderedTags, and the set of keys of the fields map equals
the set of names in orderedTags. -/
theorem C7_fieldMap_invariant (shape : List Field) :
    (getFieldMap shape).orderedTags.Nodup ∧
    ∀ t : String, (lookupAssoc (getFieldMap shape).fields t).isSome = true ↔
      t ∈ (getFieldMap shape).orderedTags := by
  have h0 : stInv ⟨[], [], 0, memNil⟩ := by
    constructor
    · exact List.nodup_nil
    · intro t
      constructor
      · intro h
        simp [lookupAssoc] at h
      · intro h
        cases h
  exact addFields_inv shape nilSlice 0 false ⟨[], [], 0, memNil⟩ h0

/-- C9: nil round trip for optional fields.  Encoding an absent (nil)
pointer yields the sentinel, and decoding that cell back into any pointer
field yields nil again, for every Options; with NilValue = "" the encoded
cell is the empty string and decoding an empty cell into a pointer field
yields nil. -/
theorem C9_nil_roundtrip :
    ∀ (ety : FieldType) (old : GoVal) (opts : Options),
      formatField (.ptr none) opts = opts.nilValue ∧
      setField (.ptr ety) old (formatField (.ptr none) opts) opts = .ok (.ptr none) ∧
      formatField (.ptr none) ⟨""⟩ = "" ∧
      setField (.ptr ety) old "" ⟨""⟩ = .ok (.ptr none) := by
  intro ety old opts
  refine ⟨rfl, ?_, rfl, ?_⟩
  · have h : formatField (.ptr none) opts = opts.nilValue := rfl
    rw [h, setField, if_pos rfl]
  · rw [setField, if_pos rfl]

/-- C4: encoding a single cell never produces a hard error, by lenient
fallthrough: a succeeding TableMarshaler is used; an erroring TableMarshaler
behaves exactly like an absent one (fall through to TextMarshaler); an
erroring or absent TextMarshaler falls through to the primitive switch; and
an unsupported kind is rendered by the best-effort generic rendering. -/
theorem C4_encode_lenient_fallthrough :
    ∀ (opts : Options) (u : BaseVal) (mt : Option (Option String)) (s r : String),
      formatField (.hooked ⟨some (some s), mt⟩ u) opts = s ∧
      formatField (.hooked ⟨some none, mt⟩ u) opts =
        formatField (.hooked ⟨none, mt⟩ u) opts ∧
      formatField (.hooked ⟨some none, some (some s)⟩ u) opts = s ∧
      formatField (.hooked ⟨some none, some none⟩ u) opts = formatSwitch u ∧
      formatField (.hooked ⟨some none, none⟩ u) opts = formatSwitch u ∧
      formatField (.hooked ⟨none, none⟩ u) opts = formatSwitch u ∧
      formatField (.base (.other r)) opts = r := by
  intro opts u mt s r
  refine ⟨rfl, ?_, rfl, rfl, rfl, rfl, rfl⟩
  cases mt with
  | none => rfl
  | some mo =>
    cases mo with
    | none => rfl
    | some s2 => rfl

/-- C3: decoding the nil-sentinel cell.  For a pointer field the result is
nil and nothing further runs; for any non-pointer field (plain or carrying
arbitrary custom decode hooks) the decode fails hard, and the hooks are
never consulted: the result is the same for every choice of hooks. -/
theorem C3_nil_sentinel_decode :
    ∀ (opts : Options) (ety : FieldType) (old : GoVal) (t : BaseType)
      (dec : DecodeHooks),
      setField (.ptr ety) old opts.nilValue opts = .ok (.ptr none) ∧
      setField (.base t) old opts.nilValue opts =
        .error ("cannot set nil to non-pointer field of type: " ++ typeStr (.base t)) ∧
      setField (.hooked dec t) old opts.nilValue opts =
        .error ("cannot set nil to non-pointer field of type: " ++
          typeStr (.hooked dec t)) := by
  intro opts ety old t dec
  refine ⟨?_, ?_, ?_⟩
  · rw [setField, if_pos rfl]
  · rw [setField, if_pos rfl]
  · rw [setField, if_pos rfl]

/-- C2: a non-embedded (direct) leaf whose tag is already present overwrites
that tag's access path with the direct field's path and moves the tag to the
end of orderedTags (removed from its old position, appended), so it appears
exactly once, last; concretely, for a shape with an embedded "x", a direct
"z" and a later direct "x", the marshaled row carries the later declaration's
value at the later position, exactly once. -/
theorem C2_direct_override (st : ResolveState) (tag : String) (s : Slice)
    (h1 : tag ≠ "") (h2 : tag ≠ "-") (h3 : hasTag st.orderedTags tag = true)
    (h4 : st.orderedTags.Nodup) :
    resolveLeaf st tag s false =
      ⟨updateAssoc st.fields tag ⟨s, tag, st.pos⟩,
        removeFirst st.orderedTags tag ++ [tag], st.pos + 1, st.mem⟩ ∧
    lookupAssoc (resolveLeaf st tag s false).fields tag = some ⟨s, tag, st.pos⟩ ∧
    (resolveLeaf st tag s false).orderedTags.count tag = 1 ∧
    (resolveLeaf st tag s false).orderedTags.getLast? = some tag ∧
    (∀ (s1 s2 s3 : String) (opts : Options),
      MarshalWithOptions exShape2 [exVal2 s1 s2 s3] opts = (["z", "x"], [[s2, s3]])) := by
  have hres : resolveLeaf st tag s false =
      ⟨updateAssoc st.fields tag ⟨s, tag, st.pos⟩,
        removeFirst st.orderedTags tag ++ [tag], st.pos + 1, st.mem⟩ := by
    rw [resolveLeaf, if_neg (by simp [h1, h2]), if_neg (by simp)]
  refine ⟨hres, ?_, ?_, ?_, ?_⟩
  · rw [hres]
    show lookupAssoc (updateAssoc st.fields tag ⟨s, tag, st.pos⟩) tag =
      some ⟨s, tag, st.pos⟩
    rw [lookupAssoc_updateAssoc, if_pos rfl]
  · rw [hres]
    show (removeFirst st.orderedTags tag ++ [tag]).count tag = 1
    rw [List.count_append,
      List.count_eq_zero.mpr (not_mem_removeFirst st.orderedTags tag h4)]
    simp
  · rw [hres]
    show (removeFirst st.orderedTags tag ++ [tag]).getLast? = some tag
    rw [List.getLast?_concat]
  · intro s1 s2 s3 opts
    have h0 : MarshalWithOptions exShape2 [exVal2 s1 s2 s3] opts =
        ((getFieldMap exShape2).orderedTags,
          [marshalRow (getFieldMap exShape2) (exVal2 s1 s2 s3) opts]) := rfl
    have hg : getFieldMap exShape2 =
        ⟨[("x", ⟨⟨4, 1⟩, "x", 2⟩), ("z", ⟨⟨3, 1⟩, "z", 1⟩)], ["z", "x"], 3,
          ⟨[[], [0], [0, 0], [1], [2]]⟩⟩ := by
      simp [getFieldMap, addFields, resolveLeaf, hasTag, updateAssoc, removeFirst,
        exShape2, goAppend, growCap, capOf, readArr, readSlice, nthArr, setNth,
        writeCell, nilSlice, memNil]
    rw [h0, hg]
    simp [marshalRow, lookupAssoc, navigate, exVal2, formatField, formatSwitch,
      readSlice, readArr, nthArr]

/-- C2 witness: the override theorem applied to exStateC2 with direct tag
"x" whose freshly appended path slice is array 3 (reading [2]). -/
theorem C2_direct_override_witness :
    (("x" : String) ≠ "" ∧ ("x" : String) ≠ "-" ∧
      hasTag exStateC2.orderedTags "x" = true ∧ exStateC2.orderedTags.Nodup) ∧
    (resolveLeaf exStateC2 "x" ⟨3, 1⟩ false =
      ⟨updateAssoc exStateC2.fields "x" ⟨⟨3, 1⟩, "x", exStateC2.pos⟩,
        removeFirst exStateC2.orderedTags "x" ++ ["x"], exStateC2.pos + 1,
        exStateC2.mem⟩ ∧
    lookupAssoc (resolveLeaf exStateC2 "x" ⟨3, 1⟩ false).fields "x" =
      some ⟨⟨3, 1⟩, "x", exStateC2.pos⟩ ∧
    (resolveLeaf exStateC2 "x" ⟨3, 1⟩ false).orderedTags.count "x" = 1 ∧
    (resolveLeaf exStateC2 "x" ⟨3, 1⟩ false).orderedTags.getLast? = some "x" ∧
    (∀ (s1 s2 s3 : String) (opts : Options),
      MarshalWithOptions exShape2 [exVal2 s1 s2 s3] opts = (["z", "x"], [[s2, s3]]))) :=
  ⟨⟨by decide, by decide, by decide, by decide⟩,
    C2_direct_override exStateC2 "x" ⟨3, 1⟩ (by decide) (by decide) (by decide)
      (by decide)⟩

/-- C8: the first-seen-wins claim fails against the code.  With three levels
of embedding — the depth at which the walk's append chain first leaves spare
capacity in a shared backing array — an embedded leaf whose tag "a" is
already present is indeed not stored (the tag check skips it), but the
`currIndex := append(index, i)` computed for it at the top of the loop body
(src/table.go line 178, before the tag check) has already overwritten the
shared backing cell, repointing the earlier entry's stored access path at
the skipped field: the single binding for "a" was stored while the first
field's path read [0,0,0,0], yet in the final store it reads back
[0,0,0,1] — the skipped duplicate's path — and marshaling emits the skipped
field's value s2 instead of the first-seen field's value s1. -/
theorem C8_embedded_duplicate_corrupted :
    getFieldMap exShapeC8 =
      ⟨[("a", ⟨⟨3, 4⟩, "a", 0⟩)], ["a"], 1, ⟨[[], [0], [0, 0], [0, 0, 0, 1]]⟩⟩ ∧
    readSlice (getFieldMap exShapeC8).mem ⟨3, 4⟩ = [0, 0, 0, 1] ∧
    (∀ (s1 s2 : String) (opts : Options),
      MarshalWithOptions exShapeC8 [exValC8 s1 s2] opts = (["a"], [[s2]])) := by
  have hg : getFieldMap exShapeC8 =
      ⟨[("a", ⟨⟨3, 4⟩, "a", 0⟩)], ["a"], 1, ⟨[[], [0], [0, 0], [0, 0, 0, 1]]⟩⟩ := by
    simp [getFieldMap, addFields, resolveLeaf, hasTag, updateAssoc, removeFirst,
      exShapeC8, goAppend, growCap, capOf, readArr, readSlice, nthArr, setNth,
      writeCell, nilSlice, memNil]
  refine ⟨hg, ?_, ?_⟩
  · rw [hg]
    rfl
  · intro s1 s2 opts
    have h0 : MarshalWithOptions exShapeC8 [exValC8 s1 s2] opts =
        ((getFieldMap exShapeC8).orderedTags,
          [marshalRow (getFieldMap exShapeC8) (exValC8 s1 s2) opts]) := rfl
    rw [h0, hg]
    simp [marshalRow, lookupAssoc, navigate, exValC8, formatField, formatSwitch,
      readSlice, readArr, nthArr]

/-- C10: for signed and unsigned integer fields narrower than 64 bits, a
base-10 cell parsing at 64-bit width but out of the field's own range
decodes without error, and the stored value is the parsed value truncated
modulo 2^w (two's-complement wraparound for the signed case). -/
theorem C10_narrow_int_truncation (opts : Options) (old : GoVal) (w : Nat)
    (value : String) (i : Int) (uvalue : String) (n : Nat)
    (hw : w < 64)
    (hsv : value ≠ opts.nilValue) (hpi : parseInt64 value = .ok i)
    (hrange : ¬(-(2 ^ (w - 1) : Int) ≤ i ∧ i < 2 ^ (w - 1)))
    (husv : uvalue ≠ opts.nilValue) (hpu : parseUint64 uvalue = .ok n)
    (hurange : ¬(n < 2 ^ w)) :
    (setField (.base (.int w)) old value opts =
        .ok (.base (.int w (wrapSigned w i))) ∧
      wrapSigned w i % 2 ^ w = i % 2 ^ w) ∧
    (setField (.base (.uint w)) old uvalue opts =
        .ok (.base (.uint w (wrapUnsigned w n))) ∧
      wrapUnsigned w n = n % 2 ^ w) := by
  refine ⟨⟨?_, ?_⟩, ⟨?_, rfl⟩⟩
  · rw [setField, if_neg hsv]
    simp only [setSwitch, hpi]
  · unfold wrapSigned
    calc ((i + 2 ^ (w - 1)) % 2 ^ w - 2 ^ (w - 1)) % 2 ^ w
        = ((i + 2 ^ (w - 1)) % 2 ^ w % 2 ^ w - 2 ^ (w - 1) % 2 ^ w) % 2 ^ w := by
          rw [← Int.sub_emod]
      _ = ((i + 2 ^ (w - 1)) % 2 ^ w - 2 ^ (w - 1) % 2 ^ w) % 2 ^ w := by
          rw [Int.emod_emod_of_dvd _ dvd_rfl]
      _ = ((i + 2 ^ (w - 1)) - 2 ^ (w - 1)) % 2 ^ w := by
          rw [← Int.sub_emod]
      _ = i % 2 ^ w := by ring_nf
  · rw [setField, if_neg husv]
    simp only [setSwitch, hpu]

/-- C10 witness: cell "300" into 8-bit fields: int8 stores 44 (= 300 mod 256
shifted into the signed range), uint8 stores 44. -/
theorem C10_narrow_int_truncation_witness :
    ((8 : Nat) < 64 ∧ ("300" : String) ≠ DefaultOptions.nilValue ∧
      parseInt64 "300" = .ok 300 ∧
      ¬(-(2 ^ (8 - 1) : Int) ≤ 300 ∧ (300 : Int) < 2 ^ (8 - 1)) ∧
      parseUint64 "300" = .ok 300 ∧ ¬((300 : Nat) < 2 ^ 8)) ∧
    ((setField (.base (.int 8)) (.base (.str "")) "300" DefaultOptions =
        .ok (.base (.int 8 (wrapSigned 8 300))) ∧
      wrapSigned 8 300 % 2 ^ 8 = (300 : Int) % 2 ^ 8) ∧
     (setField (.base (.uint 8)) (.base (.str "")) "300" DefaultOptions =
        .ok (.base (.uint 8 (wrapUnsigned 8 300))) ∧
      wrapUnsigned 8 300 = 300 % 2 ^ 8)) :=
  ⟨⟨by decide, by decide, rfl, by decide, rfl, by decide⟩,
    C10_narrow_int_truncation DefaultOptions (.base (.str "")) 8 "300" 300 "300" 300
      (by decide) (by decide) rfl (by decide) (by decide) rfl (by decide)⟩

/-- C6: the first row that fails to decode aborts the whole decode with that
row's error; records decoded from earlier rows remain in the output, and the
rows after the failing one are never processed (the result does not depend
on them). -/
theorem C6_first_error_aborts (shape : List Field) (header : List String)
    (opts : Options) (g : List (List String)) (gs : List Val) (b : List String)
    (e : String) (rest : List (List String))
    (hg : g.mapM (decodeRow shape (getFieldMap shape).fields (getFieldMap shape).mem
      header opts) = .ok gs)
    (hb : decodeRow shape (getFieldMap shape).fields (getFieldMap shape).mem
      header opts b = .error e) :
    UnmarshalWithOptions shape header (g ++ b :: rest) opts = (gs, some e) := by
  rw [UnmarshalWithOptions,
    unmarshalRowsAux_append_ok shape (getFieldMap shape).fields (getFieldMap shape).mem
      header opts g gs (b :: rest) [] hg]
  simp only [unmarshalRowsAux, hb, List.nil_append]

/-- C6 witness: one good row ["x"], then an empty (mismatched) row, then a
further row that is never reached; the decode returns the one good record
and the length-mismatch error. -/
theorem C6_first_error_aborts_witness :
    ([["x"]].mapM (decodeRow exShapeStr (getFieldMap exShapeStr).fields
        (getFieldMap exShapeStr).mem ["a"] DefaultOptions) =
      .ok [Val.strct [.leaf (.base (.str "x"))]] ∧
      decodeRow exShapeStr (getFieldMap exShapeStr).fields
        (getFieldMap exShapeStr).mem ["a"] DefaultOptions
        ([] : List String) = .error "inconsistent data length") ∧
    UnmarshalWithOptions exShapeStr ["a"] ([["x"]] ++ ([] : List String) :: [["y"]])
      DefaultOptions =
      ([Val.strct [.leaf (.base (.str "x"))]], some "inconsistent data length") :=
  have hg : [["x"]].mapM (decodeRow exShapeStr (getFieldMap exShapeStr).fields
      (getFieldMap exShapeStr).mem ["a"] DefaultOptions) =
      .ok [Val.strct [.leaf (.base (.str "x"))]] := by
    simp [List.mapM, List.mapM.loop, bind, Except.bind, pure, Except.pure,
      decodeRow, getFieldMap, addFields, resolveLeaf, hasTag, updateAssoc, removeFirst,
      exShapeStr, zeroFields, zeroGo, zeroBase, fillCells, lookupAssoc, typeAt,
      navigate, setField, setSwitch, DefaultOptions, setAtVal, modifyAt,
      goAppend, growCap, capOf, readArr, readSlice, nthArr, setNth, writeCell,
      nilSlice, memNil]
  have hb : decodeRow exShapeStr (getFieldMap exShapeStr).fields
      (getFieldMap exShapeStr).mem ["a"] DefaultOptions
      ([] : List String) = .error "inconsistent data length" := by
    simp [decodeRow]
  ⟨⟨hg, hb⟩, C6_first_error_aborts exShapeStr ["a"] DefaultOptions [["x"]]
    [Val.strct [.leaf (.base (.str "x"))]] ([] : List String)
    "inconsistent data length" [["y"]] hg hb⟩

/-- C5 counterexample: the length-mismatch error does NOT name the two
lengths — the message is the constant "inconsistent data length", identical
for a 2-column header and a 3-column header against the same 1-cell row, so
it cannot carry either length. -/
theorem C5_length_mismatch_counterexample :
    (UnmarshalWithOptions exShapeStr ["a", "b"] [["x"]] DefaultOptions).2 =
      some "inconsistent data length" ∧
    (UnmarshalWithOptions exShapeStr ["a", "b", "c"] [["x"]] DefaultOptions).2 =
      some "inconsistent data length" := by
  constructor <;>
    · rw [UnmarshalWithOptions]
      simp [unmarshalRowsAux, decodeRow]

/-- C5 (amended): a row whose cell count differs from the header's column
count, reached after rows that decode successfully, fails the decode with
the constant error message "inconsistent data length" (the message does not
name the lengths), and no record is appended for that row: the output holds
exactly the records of the earlier rows. -/
theorem C5_length_mismatch (shape : List Field) (header : List String)
    (opts : Options) (g : List (List String)) (gs : List Val) (b : List String)
    (rest : List (List String))
    (hg : g.mapM (decodeRow shape (getFieldMap shape).fields (getFieldMap shape).mem
      header opts) = .ok gs)
    (hlen : b.length ≠ header.length) :
    UnmarshalWithOptions shape header (g ++ b :: rest) opts =
      (gs, some "inconsistent data length") ∧ gs.length = g.length := by
  constructor
  · rw [UnmarshalWithOptions,
      unmarshalRowsAux_append_ok shape (getFieldMap shape).fields
        (getFieldMap shape).mem header opts g gs (b :: rest) [] hg]
    have hb : decodeRow shape (getFieldMap shape).fields (getFieldMap shape).mem
        header opts b = .error "inconsistent data length" := by
      rw [decodeRow, if_pos hlen]
    simp only [unmarshalRowsAux, hb, List.nil_append]
  · exact mapM_ok_length shape (getFieldMap shape).fields (getFieldMap shape).mem
      header opts g gs hg

/-- C5 witness: one good row ["x"], then a 2-cell row against the 1-column
header; the decode stops with the constant message and keeps exactly one
record. -/
theorem C5_length_mismatch_witness :
    ([["x"]].mapM (decodeRow exShapeStr (getFieldMap exShapeStr).fields
        (getFieldMap exShapeStr).mem ["a"] DefaultOptions) =
      .ok [Val.strct [.leaf (.base (.str "x"))]] ∧
      (["y", "z"] : List String).length ≠ (["a"] : List String).length) ∧
    (UnmarshalWithOptions exShapeStr ["a"] ([["x"]] ++ ["y", "z"] :: []) DefaultOptions =
      ([Val.strct [.leaf (.base (.str "x"))]], some "inconsistent data length") ∧
      ([Val.strct [.leaf (.base (.str "x"))]] : List Val).length =
        ([["x"]] : List (List String)).length) :=
  have hg : [["x"]].mapM (decodeRow exShapeStr (getFieldMap exShapeStr).fields
      (getFieldMap exShapeStr).mem ["a"] DefaultOptions) =
      .ok [Val.strct [.leaf (.base (.str "x"))]] := by
    simp [List.mapM, List.mapM.loop, bind, Except.bind, pure, Except.pure,
      decodeRow, getFieldMap, addFields, resolveLeaf, hasTag, updateAssoc, removeFirst,
      exShapeStr, zeroFields, zeroGo, zeroBase, fillCells, lookupAssoc, typeAt,
      navigate, setField, setSwitch, DefaultOptions, setAtVal, modifyAt,
      goAppend, growCap, capOf, readArr, readSlice, nthArr, setNth, writeCell,
      nilSlice, memNil]
  ⟨⟨hg, by decide⟩,
    C5_length_mismatch exShapeStr ["a"] DefaultOptions [["x"]]
      [Val.strct [.leaf (.base (.str "x"))]] ["y", "z"] [] hg (by decide)⟩

/-- C1 counterexample: the round-trip claim fails as stated, in two ways.
First, exFieldsC1 has no nil field and unambiguous cells (cellsOK), yet
decode(encode([v])) loses the untagged field's value (2 becomes the zero
value 0).  Second, even with all leaves distinctly tagged and plain
(exShapeDeep), at three levels of embedding the walk's append chain leaves
spare capacity in a shared backing array, both stored paths come to read the
last field's path [0,0,0,1], marshal emits ["vb", "vb"] and the decoded
record loses "va" — this part forces the amended claim's embedding-depth
bound, which exShapeDeep indeed violates (noAliasWalk 0 exShapeDeep =
false). -/
theorem C1_roundtrip_counterexample :
    (wfFields exShapeC1 exFieldsC1 = true ∧
    cellsOK DefaultOptions exShapeC1 exFieldsC1 = true ∧
    UnmarshalWithOptions exShapeC1
      (MarshalWithOptions exShapeC1 [.strct exFieldsC1] DefaultOptions).1
      (MarshalWithOptions exShapeC1 [.strct exFieldsC1] DefaultOptions).2
      DefaultOptions ≠ ([.strct exFieldsC1], none)) ∧
    (plainFields exShapeDeep = true ∧
    allTagged exShapeDeep = true ∧
    ((leavesOfFields exShapeDeep).map LeafEntry.tag).Nodup ∧
    noAliasWalk 0 exShapeDeep = false ∧
    wfFields exShapeDeep exFieldsDeep = true ∧
    cellsOK DefaultOptions exShapeDeep exFieldsDeep = true ∧
    UnmarshalWithOptions exShapeDeep
      (MarshalWithOptions exShapeDeep [.strct exFieldsDeep] DefaultOptions).1
      (MarshalWithOptions exShapeDeep [.strct exFieldsDeep] DefaultOptions).2
      DefaultOptions ≠ ([.strct exFieldsDeep], none)) := by
  constructor
  · refine ⟨?_, ?_, ?_⟩
    · simp +decide [wfFields, wfGo, wfBase, validWidth, exShapeC1, exFieldsC1]
    · simp +decide [cellsOK, noNil, isPtrT, formatField, formatSwitch, formatInt,
        formatNat, natChars, natDigitsRev, digitChar, DefaultOptions, exShapeC1,
        exFieldsC1]
    · have hlhs : UnmarshalWithOptions exShapeC1
          (MarshalWithOptions exShapeC1 [.strct exFieldsC1] DefaultOptions).1
          (MarshalWithOptions exShapeC1 [.strct exFieldsC1] DefaultOptions).2
          DefaultOptions =
          ([.strct [.leaf (.base (.int 64 1)), .leaf (.base (.int 64 0))]], none) := by
        simp +decide [UnmarshalWithOptions, MarshalWithOptions, unmarshalRowsAux,
          decodeRow, marshalRow, getFieldMap, addFields, resolveLeaf, hasTag,
          updateAssoc, removeFirst, exShapeC1, exFieldsC1, zeroFields, zeroGo,
          zeroBase, fillCells, lookupAssoc, typeAt, navigate, setField, setSwitch,
          DefaultOptions, setAtVal, modifyAt, formatField, formatSwitch, formatInt,
          formatNat, natChars, natDigitsRev, digitChar, parseInt64, parseDigits,
          parseDigitsAux, digitVal, intFromDigits, wrapSigned, goAppend, growCap,
          capOf, readArr, readSlice, nthArr, setNth, writeCell, nilSlice, memNil]
      rw [hlhs]
      simp +decide [exFieldsC1]
  · refine ⟨?_, ?_, ?_, ?_, ?_, ?_, ?_⟩
    · simp +decide [plainFields, plainType, exShapeDeep]
    · simp +decide [allTagged, exShapeDeep]
    · simp +decide [leavesOfFields, shiftEntry, consEntry, exShapeDeep]
    · simp +decide [noAliasWalk, exShapeDeep]
    · simp +decide [wfFields, wfGo, wfBase, exShapeDeep, exFieldsDeep]
    · simp +decide [cellsOK, noNil, isPtrT, formatField, formatSwitch,
        DefaultOptions, exShapeDeep, exFieldsDeep]
    · have hlhs : UnmarshalWithOptions exShapeDeep
          (MarshalWithOptions exShapeDeep [.strct exFieldsDeep] DefaultOptions).1
          (MarshalWithOptions exShapeDeep [.strct exFieldsDeep] DefaultOptions).2
          DefaultOptions =
          ([.strct [.strct [.strct [.strct [.leaf (.base (.str "")),
            .leaf (.base (.str "vb"))]]]]], none) := by
        simp +decide [UnmarshalWithOptions, MarshalWithOptions, unmarshalRowsAux,
          decodeRow, marshalRow, getFieldMap, addFields, resolveLeaf, hasTag,
          updateAssoc, removeFirst, exShapeDeep, exFieldsDeep, zeroFields, zeroGo,
          zeroBase, fillCells, lookupAssoc, typeAt, navigate, setField, setSwitch,
          DefaultOptions, setAtVal, modifyAt, formatField, formatSwitch, goAppend,
          growCap, capOf, readArr, readSlice, nthArr, setNth, writeCell, nilSlice,
          memNil]
      rw [hlhs]
      simp +decide [exFieldsDeep]

/-- C1 (amended): for every record shape whose leaves all carry distinct,
non-ignored tags and plain built-in field types, whose embedded structs nest
at most two deep (every leaf access path has length at most 3, so the
resolution walk's appends never reuse spare backing capacity), and every
well-formed record value with no nil optional field and no cell colliding
with the nil sentinel (nor, for optional fields, with the empty string),
unmarshaling the header and rows produced by marshaling the one-element
slice [v] yields [v] again, with no error. -/
theorem C1_roundtrip (shape : List Field) (vs : List Val) (opts : Options)
    (hplain : plainFields shape = true)
    (htag : allTagged shape = true)
    (hnd : ((leavesOfFields shape).map LeafEntry.tag).Nodup)
    (hdepth : noAliasWalk 0 shape = true)
    (hwf : wfFields shape vs = true)
    (hc : cellsOK opts shape vs = true) :
    UnmarshalWithOptions shape (MarshalWithOptions shape [.strct vs] opts).1
      (MarshalWithOptions shape [.strct vs] opts).2 opts = ([.strct vs], none) :=
  roundtrip_single shape vs opts hplain htag hnd hdepth hwf hc

/-- C1 witness: the round-trip theorem applied to a record with a string
field, an embedded optional 64-bit int holding 23, and a bool. -/
theorem C1_roundtrip_witness :
    (plainFields exShapeW = true ∧ allTagged exShapeW = true ∧
      ((leavesOfFields exShapeW).map LeafEntry.tag).Nodup ∧
      noAliasWalk 0 exShapeW = true ∧
      wfFields exShapeW exFieldsW = true ∧
      cellsOK DefaultOptions exShapeW exFieldsW = true) ∧
    UnmarshalWithOptions exShapeW
      (MarshalWithOptions exShapeW [.strct exFieldsW] DefaultOptions).1
      (MarshalWithOptions exShapeW [.strct exFieldsW] DefaultOptions).2
      DefaultOptions = ([.strct exFieldsW], none) :=
  have h1 : plainFields exShapeW = true := by
    simp +decide [plainFields, plainType, validWidth, exShapeW]
  have h2 : allTagged exShapeW = true := by
    simp +decide [allTagged, exShapeW]
  have h3 : ((leavesOfFields exShapeW).map LeafEntry.tag).Nodup := by
    simp +decide [leavesOfFields, shiftEntry, consEntry, exShapeW]
  have h6 : noAliasWalk 0 exShapeW = true := by
    simp +decide [noAliasWalk, exShapeW]
  have h4 : wfFields exShapeW exFieldsW = true := by
    simp +decide [wfFields, wfGo, wfBase, validWidth, exShapeW, exFieldsW]
  have h5 : cellsOK DefaultOptions exShapeW exFieldsW = true := by
    simp +decide [cellsOK, noNil, isPtrT, formatField, formatSwitch, formatInt,
      formatNat, formatBool, natChars, natDigitsRev, digitChar, DefaultOptions,
      exShapeW, exFieldsW]
  ⟨⟨h1, h2, h3, h6, h4, h5⟩,
    C1_roundtrip exShapeW exFieldsW DefaultOptions h1 h2 h3 h6 h4 h5⟩

end GoTable
